import Mathlib

/-!
A verification development for the pypredicate first-order-logic engine
(src/pypredicate.py): a term/formula data model with arity-checked
construction, a negation-normal-form transform (`to_nnf`), and a
bound-variable standardizer (`to_svf`).

Embedding notes, keyed to the source:

* `Predicate`/`Function` are the name+arity records.  A source `Variable`
  is identified by its name (`Variable.__eq__`/`__hash__` compare names
  only), so variables are embedded as `String`s: a quantifier's `bound`
  list becomes a `List String` and a variable occurrence becomes
  `Term.var name`.
* The source is dynamically typed: any object outside the closed variant
  set can appear in a tree.  `WFF.unknown` models such a foreign formula
  variant (one that supports cloning, as any user-defined subclass with a
  `clone` method does).  `to_nnf` raises on it (lines 165-168); the
  traversals of `to_svf` (`bound_iter`, `substitute_var`) fall through
  every `isinstance` check and silently skip it.
* Failures (Python `raise`/`assert`) are embedded as `Except Err`:
  `Err.arityMismatch` for the constructor asserts, `Err.unsupportedFormula`
  for the "NNF: Invalid type" raises, `Err.recursiveBinding` for the
  "Recursive Binding" raise in `substitute_var`.
* `to_nnf` (lines 139-168) is a single recursive function whose `Not`
  branch recurses on freshly built `NotWFF` nodes; that recursion is not
  structural, so it is embedded as the mutual pair `to_nnf`/`to_nnf_neg`
  with `to_nnf_neg c` playing the role of `to_nnf(NotWFF(c))`.  The
  theorem `claim_C6` recovers every source equation of the `Not` branch,
  certifying that the restructuring computes exactly the source rules.
* `to_svf` (lines 170-215) clones its input and then renames in place,
  driven by the lazy generator `bound_iter` interleaved with the
  mutations of `substitute_var`.  The generator's traversal decisions
  depend only on the tree structure and the `bound` lists, and neither is
  ever structurally mutated, so the processing order is fixed in advance:
  for each quantifier node, its own bound variables in list order, then
  its child; `Not` descends into its child; `And`/`Or` visit children in
  order; `Atomic` (and unknown variants) yield nothing.  The pure
  embedding `svf_go` performs exactly this walk, threading the
  `already_bound` set and applying `substitute_var` to the quantifier's
  child before descending into it, which is precisely what the in-place
  version observes.  Cloning is the identity in a pure embedding.
-/

namespace PyPredicate

/-- `Predicate` (source lines 13-24): a name with an arity. -/
structure Predicate where
  name : String
  arity : Nat
deriving DecidableEq, Repr

/-- `Function` (source lines 34-44): a name with an arity. -/
structure Function where
  name : String
  arity : Nat
deriving DecidableEq, Repr

/-- Terms (source `Variable`, lines 46-56, and `FunctionalTerm`,
lines 58-68).  A `Variable` is its name. -/
inductive Term where
  | var : String → Term
  | func : Function → List Term → Term

/-- Formulas (source `AtomicWFF`, `NotWFF`, `AndWFF`, `OrWFF`,
`ForAllWFF`, `ThereExistsWFF`, lines 79-137), plus `unknown` for a
formula variant outside that closed set (the source is dynamically
typed; `unknown` models a foreign cloneable node). -/
inductive WFF where
  | atomic : Predicate → List Term → WFF
  | not : WFF → WFF
  | and : List WFF → WFF
  | or : List WFF → WFF
  | forAll : List String → WFF → WFF
  | thereExists : List String → WFF → WFF
  | unknown : WFF

/-- The distinct failure reasons of the library (spec section 7). -/
inductive Err where
  | unsupportedFormula
  | recursiveBinding
  | arityMismatch
deriving DecidableEq, Repr

/-- `AtomicWFF.__init__` (source lines 80-83): constructing an atomic
formula asserts `len(terms) == predicate.arity`. -/
def makeAtomic (p : Predicate) (ts : List Term) : Except Err WFF :=
  if ts.length = p.arity then .ok (.atomic p ts) else .error .arityMismatch

/-- `FunctionalTerm.__init__` (source lines 59-62): constructing a
functional term asserts `len(terms) == function.arity`. -/
def makeFunctionalTerm (f : Function) (ts : List Term) : Except Err Term :=
  if ts.length = f.arity then .ok (.func f ts) else .error .arityMismatch

mutual

/-- `Variable.__str__` / `FunctionalTerm.__str__` (source lines 53-54,
63-66). -/
def termStr : Term → String
  | .var n => n
  | .func f ts =>
    if f.arity = 0 then f.name
    else f.name ++ "(" ++ String.intercalate ", " (termStrList ts) ++ ")"

def termStrList : List Term → List String
  | [] => []
  | t :: ts => termStr t :: termStrList ts

end

mutual

/-- The `__str__` renderings of the formula classes (source lines 84-87,
96-97, 104-105, 112-113, 121-124, 132-135).  A foreign variant has no
defined rendering; `unknown` renders as the empty string. -/
def wffStr : WFF → String
  | .atomic p ts =>
    if p.arity = 0 then p.name
    else p.name ++ "(" ++ String.intercalate ", " (termStrList ts) ++ ")"
  | .not c => "~" ++ wffStr c
  | .and cs => "(" ++ String.intercalate " & " (wffStrList cs) ++ ")"
  | .or cs => "(" ++ String.intercalate " | " (wffStrList cs) ++ ")"
  | .forAll b c => "A " ++ String.intercalate "," b ++ ":(" ++ wffStr c ++ ")"
  | .thereExists b c => "E " ++ String.intercalate "," b ++ ":(" ++ wffStr c ++ ")"
  | .unknown => ""

def wffStrList : List WFF → List String
  | [] => []
  | c :: cs => wffStr c :: wffStrList cs

end

mutual

/-- `to_nnf` (source lines 139-168).  The source's `NotWFF` branch
dispatches on the negation's child and recurses on freshly built
`NotWFF` nodes; `to_nnf_neg c` embeds `to_nnf(NotWFF(c))` so that the
recursion is structural.  `claim_C6` proves the source-shaped equations
of the `Not` branch. -/
def to_nnf : WFF → Except Err WFF
  | .atomic p ts => .ok (.atomic p ts)
  | .and cs => (to_nnf_list cs).map .and
  | .or cs => (to_nnf_list cs).map .or
  | .forAll b c => (to_nnf c).map (.forAll b)
  | .thereExists b c => (to_nnf c).map (.thereExists b)
  | .not c => to_nnf_neg c
  | .unknown => .error .unsupportedFormula

/-- The `NotWFF` branch of `to_nnf` (source lines 151-166):
`to_nnf_neg c = to_nnf(NotWFF(c))`. -/
def to_nnf_neg : WFF → Except Err WFF
  | .not inner => to_nnf inner
  | .atomic p ts => .ok (.not (.atomic p ts))
  | .and cs => (to_nnf_neg_list cs).map .or
  | .or cs => (to_nnf_neg_list cs).map .and
  | .forAll b inner => (to_nnf_neg inner).map (.thereExists b)
  | .thereExists b inner => (to_nnf_neg inner).map (.forAll b)
  | .unknown => .error .unsupportedFormula

/-- The list comprehensions `[to_nnf(c) for c in children]`. -/
def to_nnf_list : List WFF → Except Err (List WFF)
  | [] => .ok []
  | c :: cs => do
    let c' ← to_nnf c
    let cs' ← to_nnf_list cs
    .ok (c' :: cs')

/-- The list comprehensions `[to_nnf(NotWFF(c)) for c in children]`. -/
def to_nnf_neg_list : List WFF → Except Err (List WFF)
  | [] => .ok []
  | c :: cs => do
    let c' ← to_nnf_neg c
    let cs' ← to_nnf_neg_list cs
    .ok (c' :: cs')

end

mutual

/-- Number of formula nodes in a tree (termination measure for the
standardizer; variable names do not count, so renaming preserves it). -/
def wsize : WFF → Nat
  | .atomic _ _ => 1
  | .not c => 1 + wsize c
  | .and cs => 1 + wsizeList cs
  | .or cs => 1 + wsizeList cs
  | .forAll _ c => 1 + wsize c
  | .thereExists _ c => 1 + wsize c
  | .unknown => 1

def wsizeList : List WFF → Nat
  | [] => 0
  | c :: cs => wsize c + wsizeList cs

end

theorem wsize_pos (f : WFF) : 1 ≤ wsize f := by
  cases f <;> simp [wsize]

theorem wsize_le_of_mem {c : WFF} {cs : List WFF} (h : c ∈ cs) : wsize c ≤ wsizeList cs := by
  induction cs with
  | nil => cases h
  | cons a t ih =>
    rcases List.mem_cons.mp h with rfl | h'
    · simp [wsizeList]
    · have := ih h'
      simp [wsizeList]
      omega

/-- Decimal digits of `n`, most significant first, as Python's `str`
renders a non-negative integer.  The division loop is driven by fuel;
`n` itself is always enough fuel since the argument shrinks by a factor
of ten each step. -/
def natDigitsAux : Nat → Nat → List Char
  | 0, n => [Nat.digitChar (n % 10)]
  | fuel + 1, n =>
    if n < 10 then [Nat.digitChar n]
    else natDigitsAux fuel (n / 10) ++ [Nat.digitChar (n % 10)]

def natDigits (n : Nat) : List Char := natDigitsAux n n

/-- Python `int` on a run of decimal digits. -/
def parseDigits (ds : List Char) : Nat :=
  ds.foldl (fun a c => a * 10 + (c.toNat - '0'.toNat)) 0

/-- The character list that the `$` anchor of the source regex sees:
without `re.MULTILINE`, `$` matches at the end of the string and also
just before a newline that is the string's last character, so a single
trailing newline is invisible to the trailing-digit search. -/
def anchorChars (name : String) : List Char :=
  if name.data.getLast? = some '\n' then name.data.dropLast else name.data

/-- `increment` (source lines 201-206): `re.search(r"(.*?)(\d+)$", name)`.
`$` matches at the end of the string or just before a single trailing
newline (`anchorChars`); `(\d+)` captures the maximal digit run ending
there (the non-greedy `(.*?)` makes the digit group as long as
possible); `.` does not match a newline and `re.search` picks the
leftmost possible start, so group 1 is exactly the segment between the
last newline before the digits and the digits — everything up to and
including that newline, and a trailing newline, are dropped from the
result.  With no match the function appends `"0"` to the whole name. -/
def increment (name : String) : String :=
  if ((anchorChars name).reverse.takeWhile (fun c => c.isDigit)).isEmpty then
    ⟨name.data ++ ['0']⟩
  else
    ⟨(((anchorChars name).reverse.dropWhile (fun c => c.isDigit)).takeWhile
        (fun c => c != '\n')).reverse ++
      natDigits (parseDigits
        ((anchorChars name).reverse.takeWhile (fun c => c.isDigit)).reverse + 1)⟩

example : increment "x" = "x0" := by decide
example : increment "x0" = "x1" := by decide
example : increment "x9" = "x10" := by decide
example : increment "x09" = "x10" := by decide
example : increment "12" = "13" := by decide
example : increment "x9\n" = "x10" := by decide
example : increment "a\nb9" = "b10" := by decide
example : increment "x9\n5" = "6" := by decide
example : increment "x9\n\n" = "x9\n\n0" := by decide
example : increment "x\n" = "x\n0" := by decide

/-- Rank of a name under the increment rule: zero when the source regex
finds no trailing digit run, one more than the value of the run it
finds otherwise.  `increment` raises the rank by exactly one, which
makes the `while name in already_bound` loop of `to_svf` terminate. -/
def rank (name : String) : Nat :=
  if ((anchorChars name).reverse.takeWhile (fun c => c.isDigit)).isEmpty then 0
  else parseDigits ((anchorChars name).reverse.takeWhile (fun c => c.isDigit)).reverse + 1

theorem digitChar_isDigit {d : Nat} (h : d < 10) : (Nat.digitChar d).isDigit = true := by
  interval_cases d <;> decide

theorem digitChar_val {d : Nat} (h : d < 10) : (Nat.digitChar d).toNat - '0'.toNat = d := by
  interval_cases d <;> decide

theorem parseDigits_append_one (ds : List Char) (c : Char) :
    parseDigits (ds ++ [c]) = parseDigits ds * 10 + (c.toNat - '0'.toNat) := by
  simp [parseDigits, List.foldl_append]

theorem natDigitsAux_digits : ∀ fuel n : Nat, ∀ c ∈ natDigitsAux fuel n, c.isDigit = true := by
  intro fuel
  induction fuel with
  | zero =>
    intro n c hc
    simp [natDigitsAux] at hc
    subst hc
    exact digitChar_isDigit (Nat.mod_lt _ (by omega))
  | succ fuel ih =>
    intro n c hc
    by_cases h : n < 10
    · simp [natDigitsAux, h] at hc
      subst hc
      exact digitChar_isDigit h
    · simp [natDigitsAux, h] at hc
      rcases hc with hc | hc
      · exact ih _ _ hc
      · subst hc
        exact digitChar_isDigit (Nat.mod_lt _ (by omega))

theorem natDigits_digits (n : Nat) : ∀ c ∈ natDigits n, c.isDigit = true :=
  natDigitsAux_digits n n

theorem natDigitsAux_ne_nil (fuel n : Nat) : natDigitsAux fuel n ≠ [] := by
  cases fuel with
  | zero => simp [natDigitsAux]
  | succ fuel =>
    by_cases h : n < 10 <;> simp [natDigitsAux, h]

theorem natDigits_ne_nil (n : Nat) : natDigits n ≠ [] := natDigitsAux_ne_nil n n

theorem natDigitsAux_parse : ∀ fuel n : Nat, n ≤ fuel → parseDigits (natDigitsAux fuel n) = n := by
  intro fuel
  induction fuel with
  | zero =>
    intro n hn
    have : n = 0 := by omega
    subst this
    decide
  | succ fuel ih =>
    intro n hn
    by_cases h : n < 10
    · simp [natDigitsAux, h, parseDigits]
      simpa using digitChar_val h
    · have hdiv : n / 10 < n := Nat.div_lt_self (by omega) (by omega)
      have hle : n / 10 ≤ fuel := by omega
      simp only [natDigitsAux, h, if_false]
      rw [parseDigits_append_one, ih _ hle, digitChar_val (Nat.mod_lt _ (by omega))]
      omega

theorem natDigits_parse (n : Nat) : parseDigits (natDigits n) = n :=
  natDigitsAux_parse n n le_rfl

theorem takeWhile_append_all {p : Char → Bool} {A : List Char} (B : List Char)
    (h : ∀ a ∈ A, p a = true) : (A ++ B).takeWhile p = A ++ B.takeWhile p := by
  induction A with
  | nil => rfl
  | cons a t ih =>
    have ha : p a = true := h a (by simp)
    simp [List.takeWhile_cons, ha]
    exact ih fun x hx => h x (by simp [hx])

theorem takeWhile_dropWhile_self {p : Char → Bool} (l : List Char) :
    (l.dropWhile p).takeWhile p = [] := by
  induction l with
  | nil => rfl
  | cons a t ih =>
    by_cases ha : p a = true
    · simpa [List.dropWhile_cons, ha] using ih
    · simp [List.dropWhile_cons, ha, List.takeWhile_cons]

theorem isDigit_ne_newline {c : Char} (h : c.isDigit = true) : ¬ c = '\n' := by
  intro hc
  subst hc
  exact absurd h (by decide)

theorem dropWhile_head_not {p : Char → Bool} :
    ∀ {l : List Char} {c : Char} {r : List Char}, l.dropWhile p = c :: r → p c = false := by
  intro l
  induction l with
  | nil => intro c r h; cases h
  | cons a t ih =>
    intro c r h
    rw [List.dropWhile_cons] at h
    by_cases ha : p a = true
    · rw [if_pos ha] at h
      exact ih h
    · rw [if_neg ha] at h
      cases h
      simpa using ha

theorem takeWhile_all {p : Char → Bool} :
    ∀ {l : List Char}, (∀ a ∈ l, p a = true) → l.takeWhile p = l := by
  intro l
  induction l with
  | nil => intro _; rfl
  | cons a t ih =>
    intro h
    rw [List.takeWhile_cons, if_pos (h a (by simp)), ih (fun x hx => h x (by simp [hx]))]

theorem dropWhile_append_all {p : Char → Bool} (A B : List Char)
    (h : ∀ a ∈ A, p a = true) : (A ++ B).dropWhile p = B.dropWhile p := by
  induction A with
  | nil => rfl
  | cons a t ih =>
    simp only [List.cons_append, List.dropWhile_cons, h a (by simp), if_true]
    exact ih (fun x hx => h x (by simp [hx]))

theorem dropWhile_of_takeWhile_nil {p : Char → Bool} {l : List Char}
    (h : l.takeWhile p = []) : l.dropWhile p = l := by
  cases l with
  | nil => rfl
  | cons a t =>
    rw [List.takeWhile_cons] at h
    by_cases ha : p a = true
    · rw [if_pos ha] at h
      cases h
    · rw [List.dropWhile_cons, if_neg ha]

theorem eq_dropLast_concat_of_getLast {l : List Char} {c : Char} (h : l.getLast? = some c) :
    l = l.dropLast ++ [c] := by
  have hne : l ≠ [] := by
    intro h0
    subst h0
    simp at h
  have hg := List.getLast?_eq_getLast_of_ne_nil hne
  rw [hg] at h
  have hc := Option.some.inj h
  rw [← hc]
  exact (List.dropLast_append_getLast hne).symm

theorem anchor_nil_takeWhile {s : String}
    (h : (anchorChars s).reverse.takeWhile (fun c => c.isDigit) = []) :
    s.data.reverse.takeWhile (fun c => c.isDigit) = [] := by
  rw [anchorChars] at h
  by_cases hl : s.data.getLast? = some '\n'
  · rw [eq_dropLast_concat_of_getLast hl]
    have hrev : (s.data.dropLast ++ ['\n']).reverse = '\n' :: s.data.dropLast.reverse := by
      simp
    rw [hrev, List.takeWhile_cons]
    simp
  · rw [if_neg hl] at h
    exact h

theorem rank_increment (s : String) : rank (increment s) = rank s + 1 := by
  by_cases h : ((anchorChars s).reverse.takeWhile (fun c => c.isDigit)).isEmpty = true
  · -- no match: a "0" is appended to the whole name
    have hnil : (anchorChars s).reverse.takeWhile (fun c => c.isDigit) = [] :=
      List.isEmpty_iff.mp h
    have hsnil : s.data.reverse.takeWhile (fun c => c.isDigit) = [] :=
      anchor_nil_takeWhile hnil
    have hinc : increment s = ⟨s.data ++ ['0']⟩ := by
      rw [increment, if_pos h]
    rw [hinc]
    simp only [rank]
    have hanchor : anchorChars ⟨s.data ++ ['0']⟩ = s.data ++ ['0'] := by
      have hdata : (⟨s.data ++ ['0']⟩ : String).data = s.data ++ ['0'] := rfl
      rw [anchorChars, hdata, List.getLast?_concat]
      simp
    rw [hanchor]
    have hrev : (s.data ++ ['0']).reverse = '0' :: s.data.reverse := by
      simp
    rw [hrev, List.takeWhile_cons]
    simp [hsnil, h, parseDigits]
  · -- a digit run is found: it is reparsed, incremented, reprinted
    have hinc : increment s =
        ⟨(((anchorChars s).reverse.dropWhile (fun c => c.isDigit)).takeWhile
            (fun c => c != '\n')).reverse ++
          natDigits (parseDigits
            ((anchorChars s).reverse.takeWhile (fun c => c.isDigit)).reverse + 1)⟩ := by
      rw [increment, if_neg h]
    rw [hinc]
    simp only [rank]
    rcases List.eq_nil_or_concat (natDigits (parseDigits
        ((anchorChars s).reverse.takeWhile (fun c => c.isDigit)).reverse + 1)) with hc | hc
    · exact absurd hc (natDigits_ne_nil _)
    obtain ⟨l', a, hc⟩ := hc
    rw [List.concat_eq_append] at hc
    have ha : a.isDigit = true := by
      apply natDigits_digits _ a
      rw [hc]
      simp
    have hanchor : anchorChars ⟨(((anchorChars s).reverse.dropWhile
          (fun c => c.isDigit)).takeWhile (fun c => c != '\n')).reverse ++
          natDigits (parseDigits
            ((anchorChars s).reverse.takeWhile (fun c => c.isDigit)).reverse + 1)⟩ =
        (((anchorChars s).reverse.dropWhile (fun c => c.isDigit)).takeWhile
            (fun c => c != '\n')).reverse ++
          natDigits (parseDigits
            ((anchorChars s).reverse.takeWhile (fun c => c.isDigit)).reverse + 1) := by
      rw [anchorChars]
      have hlast : ((((anchorChars s).reverse.dropWhile
          (fun c => c.isDigit)).takeWhile (fun c => c != '\n')).reverse ++
          natDigits (parseDigits
            ((anchorChars s).reverse.takeWhile (fun c => c.isDigit)).reverse + 1)).getLast?
          = some a := by
        rw [List.getLast?_append, hc, List.getLast?_concat]
        rfl
      have hdata : (⟨(((anchorChars s).reverse.dropWhile
          (fun c => c.isDigit)).takeWhile (fun c => c != '\n')).reverse ++
          natDigits (parseDigits
            ((anchorChars s).reverse.takeWhile (fun c => c.isDigit)).reverse + 1)⟩ :
            String).data =
          (((anchorChars s).reverse.dropWhile (fun c => c.isDigit)).takeWhile
              (fun c => c != '\n')).reverse ++
            natDigits (parseDigits
              ((anchorChars s).reverse.takeWhile (fun c => c.isDigit)).reverse + 1) := rfl
      rw [hdata, hlast,
        if_neg (fun hEq => isDigit_ne_newline ha (Option.some.inj hEq))]
    rw [hanchor]
    have hrev : ((((anchorChars s).reverse.dropWhile (fun c => c.isDigit)).takeWhile
            (fun c => c != '\n')).reverse ++
          natDigits (parseDigits
            ((anchorChars s).reverse.takeWhile (fun c => c.isDigit)).reverse + 1)).reverse =
        (natDigits (parseDigits
            ((anchorChars s).reverse.takeWhile (fun c => c.isDigit)).reverse + 1)).reverse ++
          ((anchorChars s).reverse.dropWhile (fun c => c.isDigit)).takeWhile
            (fun c => c != '\n') := by
      simp
    rw [hrev]
    have hall : ∀ x ∈ (natDigits (parseDigits
        ((anchorChars s).reverse.takeWhile (fun c => c.isDigit)).reverse + 1)).reverse,
        (fun c => c.isDigit) x = true := by
      intro x hx
      exact natDigits_digits _ x (List.mem_reverse.mp hx)
    rw [takeWhile_append_all _ hall]
    have htk : (((anchorChars s).reverse.dropWhile (fun c => c.isDigit)).takeWhile
        (fun c => c != '\n')).takeWhile (fun c => c.isDigit) = [] := by
      cases hr : (anchorChars s).reverse.dropWhile (fun c => c.isDigit) with
      | nil => rfl
      | cons c0 r0 =>
        have hc0 : (fun c => c.isDigit) c0 = false := dropWhile_head_not hr
        rw [List.takeWhile_cons]
        by_cases hcn : (c0 != '\n') = true
        · rw [if_pos hcn, List.takeWhile_cons]
          simp [hc0]
        · rw [if_neg hcn]
          rfl
    rw [htk, List.append_nil]
    have hne2 : ((natDigits (parseDigits
        ((anchorChars s).reverse.takeWhile (fun c => c.isDigit)).reverse + 1)).reverse).isEmpty
        = false := by
      simp [natDigits_ne_nil]
    rw [hne2]
    simp [h, natDigits_parse]

theorem length_filter_mono {α : Type} {p q : α → Bool} (l : List α)
    (h : ∀ x, q x = true → p x = true) : (l.filter q).length ≤ (l.filter p).length := by
  induction l with
  | nil => simp
  | cons a t ih =>
    by_cases hq : q a = true
    · simp only [List.filter_cons, hq, h a hq, if_true, List.length_cons]
      omega
    · by_cases hp : p a = true <;>
        simp only [List.filter_cons, hq, hp, if_true, if_false, Bool.false_eq_true,
          List.length_cons] <;>
      omega

theorem length_filter_lt {α : Type} {p q : α → Bool} {l : List α} {x : α}
    (h : ∀ y, q y = true → p y = true) (hx : x ∈ l) (hp : p x = true) (hq : q x = false) :
    (l.filter q).length < (l.filter p).length := by
  induction l with
  | nil => cases hx
  | cons a t ih =>
    rcases List.mem_cons.mp hx with rfl | hx'
    · have := length_filter_mono t h
      simp [List.filter_cons, hp, hq]
      omega
    · by_cases hqa : q a = true
      · simp [List.filter_cons, hqa, h a hqa]
        have := ih hx'
        omega
      · by_cases hpa : p a = true
        · simp [List.filter_cons, hqa, hpa]
          have := ih hx'
          omega
        · simp [List.filter_cons, hqa, hpa]
          exact ih hx'

/-- The name collision loop of `to_svf` (source lines 209-211):
`while name in already_bound: name = increment(name)`.  Termination:
each `increment` raises `rank` by one, so the candidates are pairwise
distinct and eventually leave the finite used set. -/
def freshen (used : List String) (name : String) : String :=
  if name ∈ used then freshen used (increment name) else name
termination_by (used.filter (fun u => decide (rank name ≤ rank u))).length
decreasing_by
  rename_i h
  apply length_filter_lt (x := name)
  · intro y hy
    rw [rank_increment] at hy
    simp at hy ⊢
    omega
  · exact h
  · simp
  · simp [rank_increment]

theorem freshen_of_not_mem {used : List String} {name : String} (h : name ∉ used) :
    freshen used name = name := by
  rw [freshen]
  simp [h]

theorem freshen_mem_step {used : List String} {name : String} (h : name ∈ used) :
    freshen used name = freshen used (increment name) := by
  conv_lhs => rw [freshen]
  simp [h]

theorem freshen_not_mem (used : List String) (name : String) : freshen used name ∉ used :=
  freshen.induct used (fun x => freshen used x ∉ used)
    (fun x hx ih => by simp only; rw [freshen_mem_step hx]; exact ih)
    (fun x hx => by simp only; rw [freshen_of_not_mem hx]; exact hx)
    name

mutual

/-- `substitute_var` on terms (source lines 180-187): a `FunctionalTerm`
recurses into its arguments, a `Variable` equal to `old_var` (equality
is by name) is renamed. -/
def substitute_term (old_var new_name : String) : Term → Term
  | .var n => if n = old_var then .var new_name else .var n
  | .func f ts => .func f (substitute_terms old_var new_name ts)

def substitute_terms (old_var new_name : String) : List Term → List Term
  | [] => []
  | t :: ts => substitute_term old_var new_name t :: substitute_terms old_var new_name ts

end

mutual

/-- `substitute_var` on formulas (source lines 173-187).  A quantifier
node that re-binds `old_var` (membership in its `bound` list, by name)
raises the `Recursive Binding` error before anything else; otherwise
`Not` and the quantifiers recurse into their child, `Atomic` into its
terms, `And`/`Or` into their children, and variants outside the closed
set fall through every `isinstance` check and are silently skipped. -/
def substitute_var (old_var new_name : String) : WFF → Except Err WFF
  | .forAll b c =>
    if old_var ∈ b then .error .recursiveBinding
    else (substitute_var old_var new_name c).map (.forAll b)
  | .thereExists b c =>
    if old_var ∈ b then .error .recursiveBinding
    else (substitute_var old_var new_name c).map (.thereExists b)
  | .not c => (substitute_var old_var new_name c).map .not
  | .atomic p ts => .ok (.atomic p (substitute_terms old_var new_name ts))
  | .and cs => (substitute_var_list old_var new_name cs).map .and
  | .or cs => (substitute_var_list old_var new_name cs).map .or
  | .unknown => .ok .unknown

def substitute_var_list (old_var new_name : String) : List WFF → Except Err (List WFF)
  | [] => .ok []
  | c :: cs => do
    let c' ← substitute_var old_var new_name c
    let cs' ← substitute_var_list old_var new_name cs
    .ok (c' :: cs')

end

theorem substitute_var_list_wsize_of {old_var new_name : String} {cs cs' : List WFF}
    (hpt : ∀ c ∈ cs, ∀ c', substitute_var old_var new_name c = .ok c' → wsize c' = wsize c)
    (h : substitute_var_list old_var new_name cs = .ok cs') : wsizeList cs' = wsizeList cs := by
  induction cs generalizing cs' with
  | nil =>
    simp [substitute_var_list] at h
    subst h
    rfl
  | cons a t ih =>
    simp only [substitute_var_list, bind, Except.bind] at h
    cases ha : substitute_var old_var new_name a with
    | error e => rw [ha] at h; cases h
    | ok a' =>
      rw [ha] at h
      cases ht : substitute_var_list old_var new_name t with
      | error e => rw [ht] at h; cases h
      | ok t' =>
        rw [ht] at h
        simp at h
        subst h
        have h1 := hpt a (by simp) a' ha
        have h2 := ih (fun c hc => hpt c (by simp [hc])) ht
        simp [wsizeList, h1, h2]

theorem substitute_var_wsize {old_var new_name : String} :
    ∀ f f', substitute_var old_var new_name f = .ok f' → wsize f' = wsize f := by
  have main : ∀ N f, wsize f ≤ N →
      ∀ f', substitute_var old_var new_name f = .ok f' → wsize f' = wsize f := by
    intro N
    induction N with
    | zero =>
      intro f hf
      have := wsize_pos f
      omega
    | succ N ih =>
      intro f hf f' h
      cases f with
      | atomic p ts =>
        simp [substitute_var] at h
        subst h
        simp [wsize]
      | not c =>
        simp only [substitute_var, Except.map] at h
        cases hc : substitute_var old_var new_name c with
        | error e => rw [hc] at h; cases h
        | ok c' =>
          rw [hc] at h
          simp at h
          subst h
          have := ih c (by simp [wsize] at hf ⊢; omega) c' hc
          simp [wsize, this]
      | and cs =>
        simp only [substitute_var, Except.map] at h
        cases hc : substitute_var_list old_var new_name cs with
        | error e => rw [hc] at h; cases h
        | ok cs' =>
          rw [hc] at h
          simp at h
          subst h
          have hpt : ∀ c ∈ cs, ∀ c', substitute_var old_var new_name c = .ok c' →
              wsize c' = wsize c := by
            intro c hcm c' hcc
            have hle : wsize c ≤ N := by
              have := wsize_le_of_mem hcm
              simp [wsize] at hf
              omega
            exact ih c hle c' hcc
          have := substitute_var_list_wsize_of hpt hc
          simp [wsize, this]
      | or cs =>
        simp only [substitute_var, Except.map] at h
        cases hc : substitute_var_list old_var new_name cs with
        | error e => rw [hc] at h; cases h
        | ok cs' =>
          rw [hc] at h
          simp at h
          subst h
          have hpt : ∀ c ∈ cs, ∀ c', substitute_var old_var new_name c = .ok c' →
              wsize c' = wsize c := by
            intro c hcm c' hcc
            have hle : wsize c ≤ N := by
              have := wsize_le_of_mem hcm
              simp [wsize] at hf
              omega
            exact ih c hle c' hcc
          have := substitute_var_list_wsize_of hpt hc
          simp [wsize, this]
      | forAll b c =>
        simp only [substitute_var] at h
        by_cases hb : old_var ∈ b
        · simp [hb] at h
        · simp only [hb, if_false, Except.map] at h
          cases hc : substitute_var old_var new_name c with
          | error e => rw [hc] at h; cases h
          | ok c' =>
            rw [hc] at h
            simp at h
            subst h
            have := ih c (by simp [wsize] at hf ⊢; omega) c' hc
            simp [wsize, this]
      | thereExists b c =>
        simp only [substitute_var] at h
        by_cases hb : old_var ∈ b
        · simp [hb] at h
        · simp only [hb, if_false, Except.map] at h
          cases hc : substitute_var old_var new_name c with
          | error e => rw [hc] at h; cases h
          | ok c' =>
            rw [hc] at h
            simp at h
            subst h
            have := ih c (by simp [wsize] at hf ⊢; omega) c' hc
            simp [wsize, this]
      | unknown =>
        simp [substitute_var] at h
        subst h
        rfl
  intro f
  exact main (wsize f) f le_rfl

/-- The body of the `for v,q in bound_iter(node)` loop of `to_svf`
(source lines 208-214), restricted to the bound variables of a single
quantifier node: for each bound name in list order, find a fresh name
(`freshen`), substitute it through the quantifier's child, record the
renamed binder, and add the new name to the used set. -/
def svf_quant : List String → WFF → List String → Except Err (List String × WFF × List String)
  | [], child, used => .ok ([], child, used)
  | n :: rest, child, used =>
    let m := freshen used n
    match substitute_var n m child with
    | .error e => .error e
    | .ok child' =>
      match svf_quant rest child' (m :: used) with
      | .error e => .error e
      | .ok (ms, c', u') => .ok (m :: ms, c', u')

theorem svf_quant_wsize : ∀ (b : List String) (c : WFF) (used ms : List String) (c' : WFF)
    (u' : List String), svf_quant b c used = .ok (ms, c', u') → wsize c' = wsize c := by
  intro b
  induction b with
  | nil =>
    intro c used ms c' u' h
    simp [svf_quant] at h
    rw [h.2.1]
  | cons n rest ih =>
    intro c used ms c' u' h
    simp only [svf_quant] at h
    cases hs : substitute_var n (freshen used n) c with
    | error e => rw [hs] at h; cases h
    | ok child' =>
      rw [hs] at h
      dsimp only at h
      cases hq : svf_quant rest child' (freshen used n :: used) with
      | error e => rw [hq] at h; cases h
      | ok r =>
        obtain ⟨ms1, c1, u1⟩ := r
        rw [hq] at h
        simp at h
        have h1 := substitute_var_wsize c child' hs
        have h2 := ih child' _ _ _ _ hq
        rw [h.2.1] at h2
        omega

mutual

/-- The driver of `to_svf` (source lines 207-215) fused with the
traversal order of `bound_iter` (source lines 188-200): a quantifier
node first processes its own bound variables (`svf_quant`, which applies
`substitute_var` to the child), then descends into the (renamed) child;
`Not` descends into its child; `And`/`Or` visit children left to right;
`Atomic` and unknown variants yield no bindings.  The `already_bound`
set is threaded through in visit order. -/
def svf_go : WFF → List String → Except Err (WFF × List String)
  | .forAll b c, used =>
    match h1 : svf_quant b c used with
    | .error e => .error e
    | .ok (ms, c', u1) =>
      match svf_go c' u1 with
      | .error e => .error e
      | .ok (c'', u') => .ok (.forAll ms c'', u')
  | .thereExists b c, used =>
    match h1 : svf_quant b c used with
    | .error e => .error e
    | .ok (ms, c', u1) =>
      match svf_go c' u1 with
      | .error e => .error e
      | .ok (c'', u') => .ok (.thereExists ms c'', u')
  | .not c, used =>
    match svf_go c used with
    | .error e => .error e
    | .ok (c', u') => .ok (.not c', u')
  | .and cs, used =>
    match svf_go_list cs used with
    | .error e => .error e
    | .ok (cs', u') => .ok (.and cs', u')
  | .or cs, used =>
    match svf_go_list cs used with
    | .error e => .error e
    | .ok (cs', u') => .ok (.or cs', u')
  | .atomic p ts, used => .ok (.atomic p ts, used)
  | .unknown, used => .ok (.unknown, used)
termination_by f used => 2 * wsize f
decreasing_by
  · have := svf_quant_wsize _ _ _ _ _ _ h1
    simp only [wsize]
    omega
  · have := svf_quant_wsize _ _ _ _ _ _ h1
    simp only [wsize]
    omega
  · simp only [wsize]
    omega
  · simp only [wsize]
    omega
  · simp only [wsize]
    omega

def svf_go_list : List WFF → List String → Except Err (List WFF × List String)
  | [], used => .ok ([], used)
  | c :: cs, used =>
    match svf_go c used with
    | .error e => .error e
    | .ok (c', u1) =>
      match svf_go_list cs u1 with
      | .error e => .error e
      | .ok (cs', u') => .ok (c' :: cs', u')
termination_by cs used => 2 * wsizeList cs + 1
decreasing_by
  · have := wsize_pos c
    simp only [wsizeList]
    omega
  · have := wsize_pos c
    simp only [wsizeList]
    omega

end

/-- `to_svf` (source lines 170-215).  The initial `clone` is the
identity in a pure embedding; the returned value is the fully renamed
tree. -/
def to_svf (node : WFF) : Except Err WFF :=
  match svf_go node [] with
  | .error e => .error e
  | .ok (g, _) => .ok g

/-! Step lemmas exposing one unfolding of `svf_go` without its
dependent matches, for use in the proofs below. -/

theorem svf_go_forAll_err {b : List String} {c : WFF} {used : List String} {e : Err}
    (h : svf_quant b c used = .error e) : svf_go (.forAll b c) used = .error e := by
  rw [svf_go]
  split
  · rename_i e' h1
    rw [h1] at h
    cases h
    rfl
  · rename_i ms c' u1 h1
    rw [h1] at h
    cases h

theorem svf_go_forAll_ok {b : List String} {c : WFF} {used ms : List String} {c' : WFF}
    {u1 : List String} (h : svf_quant b c used = .ok (ms, c', u1)) :
    svf_go (.forAll b c) used =
      match svf_go c' u1 with
      | .error e => .error e
      | .ok (c'', u') => .ok (.forAll ms c'', u') := by
  rw [svf_go]
  split
  · rename_i e' h1
    rw [h1] at h
    cases h
  · rename_i ms1 c1 u11 h1
    rw [h1] at h
    cases h
    rfl

theorem svf_go_thereExists_err {b : List String} {c : WFF} {used : List String} {e : Err}
    (h : svf_quant b c used = .error e) : svf_go (.thereExists b c) used = .error e := by
  rw [svf_go]
  split
  · rename_i e' h1
    rw [h1] at h
    cases h
    rfl
  · rename_i ms c' u1 h1
    rw [h1] at h
    cases h

theorem svf_go_thereExists_ok {b : List String} {c : WFF} {used ms : List String} {c' : WFF}
    {u1 : List String} (h : svf_quant b c used = .ok (ms, c', u1)) :
    svf_go (.thereExists b c) used =
      match svf_go c' u1 with
      | .error e => .error e
      | .ok (c'', u') => .ok (.thereExists ms c'', u') := by
  rw [svf_go]
  split
  · rename_i e' h1
    rw [h1] at h
    cases h
  · rename_i ms1 c1 u11 h1
    rw [h1] at h
    cases h
    rfl

theorem svf_go_not (c : WFF) (used : List String) :
    svf_go (.not c) used =
      match svf_go c used with
      | .error e => .error e
      | .ok (c', u') => .ok (.not c', u') := by
  rw [svf_go]

theorem svf_go_and (cs : List WFF) (used : List String) :
    svf_go (.and cs) used =
      match svf_go_list cs used with
      | .error e => .error e
      | .ok (cs', u') => .ok (.and cs', u') := by
  rw [svf_go]

theorem svf_go_or (cs : List WFF) (used : List String) :
    svf_go (.or cs) used =
      match svf_go_list cs used with
      | .error e => .error e
      | .ok (cs', u') => .ok (.or cs', u') := by
  rw [svf_go]

theorem svf_go_atomic (p : Predicate) (ts : List Term) (used : List String) :
    svf_go (.atomic p ts) used = .ok (.atomic p ts, used) := by
  rw [svf_go]

theorem svf_go_unknown (used : List String) :
    svf_go .unknown used = .ok (.unknown, used) := by
  rw [svf_go]

theorem svf_go_list_nil (used : List String) : svf_go_list [] used = .ok ([], used) := by
  rw [svf_go_list]

theorem svf_go_list_cons (c : WFF) (cs : List WFF) (used : List String) :
    svf_go_list (c :: cs) used =
      match svf_go c used with
      | .error e => .error e
      | .ok (c', u1) =>
        match svf_go_list cs u1 with
        | .error e => .error e
        | .ok (cs', u') => .ok (c' :: cs', u') := by
  rw [svf_go_list]

/-! A fuel-driven twin of the standardizer, kernel-computable because it
is structurally recursive.  `freshenF_eq`, `svf_quantF_eq`, `svf_goF_eq`
and `to_svf_eval_eq` prove it agrees with the real definitions whenever
the fuel is at least the recursion depth, so concrete runs of `to_svf`
can be established by `rfl`/`decide` through `to_svf_eval_eq`. -/

def freshenF : Nat → List String → String → String
  | 0, _, name => name
  | fuel + 1, used, name =>
    if name ∈ used then freshenF fuel used (increment name) else name

theorem freshenF_eq : ∀ (fuel : Nat) (used : List String) (name : String),
    (used.filter (fun u => decide (rank name ≤ rank u))).length < fuel →
    freshenF fuel used name = freshen used name := by
  intro fuel
  induction fuel with
  | zero =>
    intro used name h
    omega
  | succ fuel ih =>
    intro used name h
    by_cases hm : name ∈ used
    · rw [freshenF, if_pos hm, freshen_mem_step hm]
      apply ih
      have hlt : ((used.filter fun u => decide (rank (increment name) ≤ rank u)).length <
          (used.filter fun u => decide (rank name ≤ rank u)).length) := by
        apply length_filter_lt (x := name)
        · intro y hy
          rw [rank_increment] at hy
          simp at hy ⊢
          omega
        · exact hm
        · simp
        · simp [rank_increment]
      omega
    · rw [freshenF, if_neg hm, freshen_of_not_mem hm]

/-- `freshen` with always-sufficient fuel: at most `used.length`
candidates can collide, so `used.length + 1` steps always reach a free
name. -/
def freshenE (used : List String) (name : String) : String :=
  freshenF (used.length + 1) used name

theorem freshenE_eq (used : List String) (name : String) : freshenE used name = freshen used name := by
  apply freshenF_eq
  have := List.length_filter_le (fun u => decide (rank name ≤ rank u)) used
  omega

def svf_quantF : List String → WFF → List String → Except Err (List String × WFF × List String)
  | [], child, used => .ok ([], child, used)
  | n :: rest, child, used =>
    let m := freshenE used n
    match substitute_var n m child with
    | .error e => .error e
    | .ok child' =>
      match svf_quantF rest child' (m :: used) with
      | .error e => .error e
      | .ok (ms, c', u') => .ok (m :: ms, c', u')

theorem svf_quantF_eq : ∀ (b : List String) (c : WFF) (used : List String),
    svf_quantF b c used = svf_quant b c used := by
  intro b
  induction b with
  | nil => intro c used; rfl
  | cons n rest ih =>
    intro c used
    rw [svf_quantF, svf_quant]
    rw [freshenE_eq]
    cases substitute_var n (freshen used n) c with
    | error e => rfl
    | ok child' =>
      dsimp only
      rw [ih]

mutual

def svf_goF : Nat → WFF → List String → Except Err (WFF × List String)
  | 0, _, _ => .error .recursiveBinding
  | fuel + 1, .forAll b c, used =>
    match svf_quantF b c used with
    | .error e => .error e
    | .ok (ms, c', u1) =>
      match svf_goF fuel c' u1 with
      | .error e => .error e
      | .ok (c'', u') => .ok (.forAll ms c'', u')
  | fuel + 1, .thereExists b c, used =>
    match svf_quantF b c used with
    | .error e => .error e
    | .ok (ms, c', u1) =>
      match svf_goF fuel c' u1 with
      | .error e => .error e
      | .ok (c'', u') => .ok (.thereExists ms c'', u')
  | fuel + 1, .not c, used =>
    match svf_goF fuel c used with
    | .error e => .error e
    | .ok (c', u') => .ok (.not c', u')
  | fuel + 1, .and cs, used =>
    match svf_go_listF fuel cs used with
    | .error e => .error e
    | .ok (cs', u') => .ok (.and cs', u')
  | fuel + 1, .or cs, used =>
    match svf_go_listF fuel cs used with
    | .error e => .error e
    | .ok (cs', u') => .ok (.or cs', u')
  | _ + 1, .atomic p ts, used => .ok (.atomic p ts, used)
  | _ + 1, .unknown, used => .ok (.unknown, used)

def svf_go_listF : Nat → List WFF → List String → Except Err (List WFF × List String)
  | 0, _, _ => .error .recursiveBinding
  | _ + 1, [], used => .ok ([], used)
  | fuel + 1, c :: cs, used =>
    match svf_goF fuel c used with
    | .error e => .error e
    | .ok (c', u1) =>
      match svf_go_listF fuel cs u1 with
      | .error e => .error e
      | .ok (cs', u') => .ok (c' :: cs', u')

end

theorem svfF_eq : ∀ fuel : Nat,
    (∀ (f : WFF) (used : List String), 2 * wsize f ≤ fuel →
      svf_goF fuel f used = svf_go f used) ∧
    (∀ (cs : List WFF) (used : List String), 2 * wsizeList cs + 1 ≤ fuel →
      svf_go_listF fuel cs used = svf_go_list cs used) := by
  intro fuel
  induction fuel with
  | zero =>
    constructor
    · intro f used h
      have := wsize_pos f
      omega
    · intro cs used h
      omega
  | succ fuel ih =>
    constructor
    · intro f used h
      cases f with
      | atomic p ts => rw [svf_goF, svf_go_atomic]
      | unknown => rw [svf_goF, svf_go_unknown]
      | not c =>
        rw [svf_goF, svf_go_not]
        rw [ih.1 c used (by simp [wsize] at h; omega)]
      | and cs =>
        rw [svf_goF, svf_go_and]
        rw [ih.2 cs used (by simp [wsize] at h; omega)]
      | or cs =>
        rw [svf_goF, svf_go_or]
        rw [ih.2 cs used (by simp [wsize] at h; omega)]
      | forAll b c =>
        rw [svf_goF, svf_quantF_eq]
        cases hq : svf_quant b c used with
        | error e => rw [svf_go_forAll_err hq]
        | ok r =>
          obtain ⟨ms, c', u1⟩ := r
          rw [svf_go_forAll_ok hq]
          dsimp only
          have hw := svf_quant_wsize _ _ _ _ _ _ hq
          rw [ih.1 c' u1 (by simp [wsize] at h; omega)]
      | thereExists b c =>
        rw [svf_goF, svf_quantF_eq]
        cases hq : svf_quant b c used with
        | error e => rw [svf_go_thereExists_err hq]
        | ok r =>
          obtain ⟨ms, c', u1⟩ := r
          rw [svf_go_thereExists_ok hq]
          dsimp only
          have hw := svf_quant_wsize _ _ _ _ _ _ hq
          rw [ih.1 c' u1 (by simp [wsize] at h; omega)]
    · intro cs used h
      cases cs with
      | nil => rw [svf_go_listF, svf_go_list_nil]
      | cons c t =>
        rw [svf_go_listF, svf_go_list_cons]
        have h1 : 2 * wsize c ≤ fuel := by
          have := wsize_pos c
          simp [wsizeList] at h
          omega
        have h2 : 2 * wsizeList t + 1 ≤ fuel := by
          have := wsize_pos c
          simp [wsizeList] at h
          omega
        rw [ih.1 c used h1]
        cases svf_go c used with
        | error e => rfl
        | ok r =>
          obtain ⟨c', u1⟩ := r
          dsimp only
          rw [ih.2 t u1 h2]

/-- Kernel-computable form of `to_svf`: run the fuel twin with enough
fuel. -/
def to_svf_eval (node : WFF) : Except Err WFF :=
  match svf_goF (2 * wsize node) node [] with
  | .error e => .error e
  | .ok (g, _) => .ok g

theorem to_svf_eval_eq (node : WFF) : to_svf_eval node = to_svf node := by
  rw [to_svf_eval, to_svf, (svfF_eq (2 * wsize node)).1 node [] le_rfl]

/-! Specification predicates. -/

mutual

/-- `f` is built from the closed variant set of spec section 3 (no
foreign formula variant anywhere). -/
def closed : WFF → Bool
  | .atomic _ _ => true
  | .not c => closed c
  | .and cs => closed_list cs
  | .or cs => closed_list cs
  | .forAll _ c => closed c
  | .thereExists _ c => closed c
  | .unknown => false

def closed_list : List WFF → Bool
  | [] => true
  | c :: cs => closed c && closed_list cs

end

mutual

/-- Every `Not` node in `f` wraps an `Atomic` formula (the NNF shape of
the spec glossary). -/
def nots_atomic : WFF → Bool
  | .atomic _ _ => true
  | .not (.atomic _ _) => true
  | .not _ => false
  | .and cs => nots_atomic_list cs
  | .or cs => nots_atomic_list cs
  | .forAll _ c => nots_atomic c
  | .thereExists _ c => nots_atomic c
  | .unknown => true

def nots_atomic_list : List WFF → Bool
  | [] => true
  | c :: cs => nots_atomic c && nots_atomic_list cs

end

mutual

/-- All bound-variable names of `f`, in the visit order of `bound_iter`
(source lines 188-200): a quantifier contributes its own bound list and
then its child's bindings; `Not` passes through; `And`/`Or` concatenate
children; `Atomic` and unknown variants contribute nothing. -/
def collect_bound : WFF → List String
  | .forAll b c => b ++ collect_bound c
  | .thereExists b c => b ++ collect_bound c
  | .not c => collect_bound c
  | .and cs => collect_bound_list cs
  | .or cs => collect_bound_list cs
  | .atomic _ _ => []
  | .unknown => []

def collect_bound_list : List WFF → List String
  | [] => []
  | c :: cs => collect_bound c ++ collect_bound_list cs

end

mutual

def erase_vars_term : Term → Term
  | .var _ => .var ""
  | .func f ts => .func f (erase_vars_terms ts)

def erase_vars_terms : List Term → List Term
  | [] => []
  | t :: ts => erase_vars_term t :: erase_vars_terms ts

end

mutual

/-- Erase every variable-occurrence name (bound lists are kept intact):
two formulas with the same `erase_vars` image have identical structure
up to the names of variable occurrences. -/
def erase_vars : WFF → WFF
  | .atomic p ts => .atomic p (erase_vars_terms ts)
  | .not c => .not (erase_vars c)
  | .and cs => .and (erase_vars_list cs)
  | .or cs => .or (erase_vars_list cs)
  | .forAll b c => .forAll b (erase_vars c)
  | .thereExists b c => .thereExists b (erase_vars c)
  | .unknown => .unknown

def erase_vars_list : List WFF → List WFF
  | [] => []
  | c :: cs => erase_vars c :: erase_vars_list cs

end

mutual

def agree_free_term (env : List String) : Term → Term → Bool
  | .var n, .var n' => decide (n ∈ env) || decide (n = n')
  | .func f ts, .func f' ts' => decide (f = f') && agree_free_terms env ts ts'
  | _, _ => false

def agree_free_terms (env : List String) : List Term → List Term → Bool
  | [], [] => true
  | t :: ts, t' :: ts' => agree_free_term env t t' && agree_free_terms env ts ts'
  | _, _ => false

end

mutual

/-- `agree_free env f g`: `f` and `g` have the same connective and
quantifier structure, the same predicates, functions and argument
counts, bound lists of the same length, and every variable occurrence
whose name is not captured by `env` or by a binder of `f` on the path
has the same name in both ("only bound variable names differ, free
names are untouched"). -/
def agree_free (env : List String) : WFF → WFF → Bool
  | .atomic p ts, .atomic p' ts' => decide (p = p') && agree_free_terms env ts ts'
  | .not c, .not c' => agree_free env c c'
  | .and cs, .and cs' => agree_free_list env cs cs'
  | .or cs, .or cs' => agree_free_list env cs cs'
  | .forAll b c, .forAll b' c' =>
    decide (b.length = b'.length) && agree_free (b ++ env) c c'
  | .thereExists b c, .thereExists b' c' =>
    decide (b.length = b'.length) && agree_free (b ++ env) c c'
  | .unknown, .unknown => true
  | _, _ => false

def agree_free_list (env : List String) : List WFF → List WFF → Bool
  | [], [] => true
  | c :: cs, c' :: cs' => agree_free env c c' && agree_free_list env cs cs'
  | _, _ => false

end

mutual

/-- Some quantifier node of `f` binds a name that is already bound by an
enclosing quantifier on the same path (or listed in `env`). -/
def rebinds (env : List String) : WFF → Bool
  | .forAll b c => b.any (fun n => decide (n ∈ env)) || rebinds (b ++ env) c
  | .thereExists b c => b.any (fun n => decide (n ∈ env)) || rebinds (b ++ env) c
  | .not c => rebinds env c
  | .and cs => rebinds_list env cs
  | .or cs => rebinds_list env cs
  | .atomic _ _ => false
  | .unknown => false

def rebinds_list (env : List String) : List WFF → Bool
  | [] => false
  | c :: cs => rebinds env c || rebinds_list env cs

end

/-! Induction principles.  The nested `List` fields make the
auto-generated recursors awkward, so we derive membership-style
induction principles from size measures. -/

mutual

def tsize : Term → Nat
  | .var _ => 1
  | .func _ ts => 1 + tsizeList ts

def tsizeList : List Term → Nat
  | [] => 0
  | t :: ts => tsize t + tsizeList ts

end

theorem tsize_pos (t : Term) : 1 ≤ tsize t := by
  cases t <;> simp [tsize]

theorem tsize_le_of_mem {t : Term} {ts : List Term} (h : t ∈ ts) : tsize t ≤ tsizeList ts := by
  induction ts with
  | nil => cases h
  | cons a l ih =>
    rcases List.mem_cons.mp h with rfl | h'
    · simp [tsizeList]
    · have := ih h'
      simp [tsizeList]
      omega

theorem term_induct {P : Term → Prop}
    (hv : ∀ n, P (.var n))
    (hf : ∀ f ts, (∀ t ∈ ts, P t) → P (.func f ts)) :
    ∀ t, P t := by
  have H : ∀ N t, tsize t ≤ N → P t := by
    intro N
    induction N with
    | zero =>
      intro t ht
      have := tsize_pos t
      omega
    | succ N ih =>
      intro t ht
      cases t with
      | var n => exact hv n
      | func f ts =>
        apply hf
        intro t' ht'
        apply ih
        have := tsize_le_of_mem ht'
        simp [tsize] at ht
        omega
  intro t
  exact H (tsize t) t le_rfl

theorem wff_induct {P : WFF → Prop}
    (hatomic : ∀ p ts, P (.atomic p ts))
    (hnot : ∀ c, P c → P (.not c))
    (hand : ∀ cs, (∀ c ∈ cs, P c) → P (.and cs))
    (hor : ∀ cs, (∀ c ∈ cs, P c) → P (.or cs))
    (hforAll : ∀ b c, P c → P (.forAll b c))
    (hthereExists : ∀ b c, P c → P (.thereExists b c))
    (hunknown : P .unknown) :
    ∀ f, P f := by
  have H : ∀ N f, wsize f ≤ N → P f := by
    intro N
    induction N with
    | zero =>
      intro f hf
      have := wsize_pos f
      omega
    | succ N ih =>
      intro f hf
      cases f with
      | atomic p ts => exact hatomic p ts
      | unknown => exact hunknown
      | not c =>
        apply hnot
        apply ih
        simp [wsize] at hf
        omega
      | forAll b c =>
        apply hforAll
        apply ih
        simp [wsize] at hf
        omega
      | thereExists b c =>
        apply hthereExists
        apply ih
        simp [wsize] at hf
        omega
      | and cs =>
        apply hand
        intro c hc
        apply ih
        have := wsize_le_of_mem hc
        simp [wsize] at hf
        omega
      | or cs =>
        apply hor
        intro c hc
        apply ih
        have := wsize_le_of_mem hc
        simp [wsize] at hf
        omega
  intro f
  exact H (wsize f) f le_rfl

/-! Term-level lemmas about substitution, erasure and agreement. -/

theorem erase_subst_term (o n : String) :
    ∀ t, erase_vars_term (substitute_term o n t) = erase_vars_term t := by
  apply term_induct
  · intro m
    by_cases h : m = o <;> simp [substitute_term, h, erase_vars_term]
  · intro f ts ih
    simp only [substitute_term, erase_vars_term]
    congr 1
    induction ts with
    | nil => rfl
    | cons a l ihl =>
      simp only [substitute_terms, erase_vars_terms]
      rw [ih a (by simp), ihl (fun t ht => ih t (by simp [ht]))]

theorem erase_subst_terms (o n : String) (ts : List Term) :
    erase_vars_terms (substitute_terms o n ts) = erase_vars_terms ts := by
  induction ts with
  | nil => rfl
  | cons a l ih =>
    simp only [substitute_terms, erase_vars_terms]
    rw [erase_subst_term, ih]

theorem subst_term_self (o : String) : ∀ t, substitute_term o o t = t := by
  apply term_induct
  · intro m
    by_cases h : m = o <;> simp [substitute_term, h]
  · intro f ts ih
    simp only [substitute_term, Term.func.injEq]
    refine ⟨by trivial, ?_⟩
    induction ts with
    | nil => rfl
    | cons a l ihl =>
      simp only [substitute_terms]
      rw [ih a (by simp), ihl (fun t ht => ih t (by simp [ht]))]

theorem subst_terms_self (o : String) (ts : List Term) : substitute_terms o o ts = ts := by
  induction ts with
  | nil => rfl
  | cons a l ih =>
    simp only [substitute_terms]
    rw [subst_term_self, ih]

theorem agree_free_term_refl (env : List String) : ∀ t, agree_free_term env t t = true := by
  apply term_induct
  · intro n
    simp [agree_free_term]
  · intro f ts ih
    simp only [agree_free_term, decide_eq_true_eq, Bool.and_eq_true]
    refine ⟨by trivial, ?_⟩
    induction ts with
    | nil => rfl
    | cons a l ihl =>
      simp only [agree_free_terms, Bool.and_eq_true]
      exact ⟨ih a (by simp), ihl (fun t ht => ih t (by simp [ht]))⟩

theorem agree_free_terms_refl (env : List String) (ts : List Term) :
    agree_free_terms env ts ts = true := by
  induction ts with
  | nil => rfl
  | cons a l ih =>
    simp only [agree_free_terms, Bool.and_eq_true]
    exact ⟨agree_free_term_refl env a, ih⟩

theorem agree_free_term_subst {o : String} {env : List String} (n : String) (ho : o ∈ env) :
    ∀ t, agree_free_term env t (substitute_term o n t) = true := by
  apply term_induct
  · intro m
    have hs : substitute_term o n (Term.var m) = if m = o then Term.var n else Term.var m := rfl
    by_cases h : m = o
    · rw [hs, if_pos h]
      simp only [agree_free_term, Bool.or_eq_true, decide_eq_true_eq]
      exact Or.inl (h ▸ ho)
    · rw [hs, if_neg h]
      simp [agree_free_term]
  · intro f ts ih
    simp only [substitute_term, agree_free_term, Bool.and_eq_true, decide_eq_true_eq]
    refine ⟨by trivial, ?_⟩
    induction ts with
    | nil => rfl
    | cons a l ihl =>
      simp only [substitute_terms, agree_free_terms, Bool.and_eq_true]
      exact ⟨ih a (by simp), ihl (fun t ht => ih t (by simp [ht]))⟩

theorem agree_free_terms_subst {o : String} {env : List String} (n : String) (ho : o ∈ env)
    (ts : List Term) : agree_free_terms env ts (substitute_terms o n ts) = true := by
  induction ts with
  | nil => rfl
  | cons a l ih =>
    simp only [substitute_terms, agree_free_terms, Bool.and_eq_true]
    exact ⟨agree_free_term_subst n ho a, ih⟩

theorem agree_free_terms_trans_of {env : List String} {as bs cs : List Term}
    (hpt : ∀ a ∈ as, ∀ b c, agree_free_term env a b = true → agree_free_term env b c = true →
      agree_free_term env a c = true)
    (hab : agree_free_terms env as bs = true) (hbc : agree_free_terms env bs cs = true) :
    agree_free_terms env as cs = true := by
  induction as generalizing bs cs with
  | nil =>
    cases bs with
    | nil =>
      cases cs with
      | nil => rfl
      | cons _ _ => simp [agree_free_terms] at hbc
    | cons _ _ => simp [agree_free_terms] at hab
  | cons x l ih =>
    cases bs with
    | nil => simp [agree_free_terms] at hab
    | cons y m =>
      cases cs with
      | nil => simp [agree_free_terms] at hbc
      | cons z k =>
        simp only [agree_free_terms, Bool.and_eq_true] at hab hbc ⊢
        refine ⟨hpt x (by simp) y z hab.1 hbc.1, ?_⟩
        exact ih (fun a ha => hpt a (by simp [ha])) hab.2 hbc.2

theorem agree_free_term_trans {env : List String} :
    ∀ a b c, agree_free_term env a b = true → agree_free_term env b c = true →
      agree_free_term env a c = true := by
  have main : ∀ a, ∀ b c, agree_free_term env a b = true → agree_free_term env b c = true →
      agree_free_term env a c = true := by
    apply term_induct
    · intro n b c hab hbc
      cases b with
      | var n' =>
        cases c with
        | var n'' =>
          simp only [agree_free_term, Bool.or_eq_true, decide_eq_true_eq] at hab hbc ⊢
          rcases hab with h | rfl
          · exact Or.inl h
          · exact hbc
        | func f ts => simp [agree_free_term] at hbc
      | func f ts => simp [agree_free_term] at hab
    · intro f ts ih b c hab hbc
      cases b with
      | var n => simp [agree_free_term] at hab
      | func f' ts' =>
        cases c with
        | var n => simp [agree_free_term] at hbc
        | func f'' ts'' =>
          simp only [agree_free_term, Bool.and_eq_true, decide_eq_true_eq] at hab hbc ⊢
          obtain ⟨rfl, hab2⟩ := hab
          obtain ⟨rfl, hbc2⟩ := hbc
          exact ⟨rfl, agree_free_terms_trans_of (fun a ha => ih a ha) hab2 hbc2⟩
  exact main

theorem agree_free_terms_trans {env : List String} {a b c : List Term}
    (hab : agree_free_terms env a b = true) (hbc : agree_free_terms env b c = true) :
    agree_free_terms env a c = true :=
  agree_free_terms_trans_of (fun t _ => agree_free_term_trans t) hab hbc

/-! Helpers for case-splitting `Except` computations. -/

theorem map_eq_ok {α β : Type} {f : α → β} {x : Except Err α} {b : β} :
    x.map f = .ok b ↔ ∃ a, x = .ok a ∧ f a = b := by
  cases x <;> simp [Except.map]

theorem map_eq_err {α β : Type} {f : α → β} {x : Except Err α} {e : Err} :
    x.map f = .error e ↔ x = .error e := by
  cases x <;> simp [Except.map]

theorem subst_list_cons_ok {o n : String} {c : WFF} {cs : List WFF} {r : List WFF} :
    substitute_var_list o n (c :: cs) = .ok r ↔
      ∃ c' cs', substitute_var o n c = .ok c' ∧ substitute_var_list o n cs = .ok cs' ∧
        r = c' :: cs' := by
  constructor
  · intro h
    simp only [substitute_var_list, bind, Except.bind] at h
    cases hc : substitute_var o n c with
    | error e => rw [hc] at h; cases h
    | ok c' =>
      rw [hc] at h
      dsimp only at h
      cases ht : substitute_var_list o n cs with
      | error e => rw [ht] at h; cases h
      | ok cs' =>
        rw [ht] at h
        simp at h
        exact ⟨c', cs', rfl, rfl, h.symm⟩
  · rintro ⟨c', cs', hc, ht, rfl⟩
    simp [substitute_var_list, bind, Except.bind, hc, ht]

theorem subst_list_cons_err {o n : String} {c : WFF} {cs : List WFF} {e : Err} :
    substitute_var_list o n (c :: cs) = .error e ↔
      substitute_var o n c = .error e ∨
        (∃ c', substitute_var o n c = .ok c' ∧ substitute_var_list o n cs = .error e) := by
  constructor
  · intro h
    simp only [substitute_var_list, bind, Except.bind] at h
    cases hc : substitute_var o n c with
    | error e' =>
      rw [hc] at h
      cases h
      exact Or.inl rfl
    | ok c' =>
      rw [hc] at h
      dsimp only at h
      cases ht : substitute_var_list o n cs with
      | error e' =>
        rw [ht] at h
        cases h
        exact Or.inr ⟨c', rfl, rfl⟩
      | ok cs' =>
        rw [ht] at h
        cases h
  · rintro (h | ⟨c', hc, ht⟩)
    · simp [substitute_var_list, bind, Except.bind, h]
    · simp [substitute_var_list, bind, Except.bind, hc, ht]

/-! Lemmas about `substitute_var`. -/

theorem subst_list_erase_of {o n : String} {cs cs' : List WFF}
    (hpt : ∀ c ∈ cs, ∀ c', substitute_var o n c = .ok c' → erase_vars c' = erase_vars c)
    (h : substitute_var_list o n cs = .ok cs') : erase_vars_list cs' = erase_vars_list cs := by
  induction cs generalizing cs' with
  | nil =>
    simp [substitute_var_list] at h
    subst h
    rfl
  | cons a t ih =>
    rw [subst_list_cons_ok] at h
    obtain ⟨c', t', hc, ht, rfl⟩ := h
    simp only [erase_vars_list]
    rw [hpt a (by simp) c' hc, ih (fun c hc' => hpt c (by simp [hc'])) ht]

theorem subst_erase {o n : String} :
    ∀ f, ∀ f', substitute_var o n f = .ok f' → erase_vars f' = erase_vars f := by
  apply wff_induct
  · intro p ts f' h
    simp only [substitute_var] at h
    cases h
    simp only [erase_vars]
    rw [erase_subst_terms]
  · intro c ih f' h
    simp only [substitute_var, map_eq_ok] at h
    obtain ⟨c', hc, rfl⟩ := h
    simp only [erase_vars]
    rw [ih c' hc]
  · intro cs ih f' h
    simp only [substitute_var, map_eq_ok] at h
    obtain ⟨cs', hc, rfl⟩ := h
    simp only [erase_vars]
    rw [subst_list_erase_of ih hc]
  · intro cs ih f' h
    simp only [substitute_var, map_eq_ok] at h
    obtain ⟨cs', hc, rfl⟩ := h
    simp only [erase_vars]
    rw [subst_list_erase_of ih hc]
  · intro b c ih f' h
    simp only [substitute_var] at h
    by_cases hb : o ∈ b
    · simp [hb] at h
    · rw [if_neg hb, map_eq_ok] at h
      obtain ⟨c', hc, rfl⟩ := h
      simp only [erase_vars]
      rw [ih c' hc]
  · intro b c ih f' h
    simp only [substitute_var] at h
    by_cases hb : o ∈ b
    · simp [hb] at h
    · rw [if_neg hb, map_eq_ok] at h
      obtain ⟨c', hc, rfl⟩ := h
      simp only [erase_vars]
      rw [ih c' hc]
  · intro f' h
    simp only [substitute_var] at h
    cases h
    rfl

theorem subst_list_agree_of {o n : String} {env : List String} {cs cs' : List WFF}
    (hpt : ∀ c ∈ cs, ∀ c', substitute_var o n c = .ok c' →
      agree_free env c c' = true)
    (h : substitute_var_list o n cs = .ok cs') : agree_free_list env cs cs' = true := by
  induction cs generalizing cs' with
  | nil =>
    simp [substitute_var_list] at h
    subst h
    rfl
  | cons a t ih =>
    rw [subst_list_cons_ok] at h
    obtain ⟨c', t', hc, ht, rfl⟩ := h
    simp only [agree_free_list, Bool.and_eq_true]
    exact ⟨hpt a (by simp) c' hc, ih (fun c hc' => hpt c (by simp [hc'])) ht⟩

theorem subst_agree {o n : String} :
    ∀ f, ∀ f', substitute_var o n f = .ok f' → ∀ env, o ∈ env →
      agree_free env f f' = true := by
  have main : ∀ f, ∀ env, o ∈ env → ∀ f', substitute_var o n f = .ok f' →
      agree_free env f f' = true := by
    apply wff_induct
    · intro p ts env ho f' h
      simp only [substitute_var] at h
      cases h
      simp only [agree_free, Bool.and_eq_true, decide_eq_true_eq]
      exact ⟨by trivial, agree_free_terms_subst n ho ts⟩
    · intro c ih env ho f' h
      simp only [substitute_var, map_eq_ok] at h
      obtain ⟨c', hc, rfl⟩ := h
      simp only [agree_free]
      exact ih env ho c' hc
    · intro cs ih env ho f' h
      simp only [substitute_var, map_eq_ok] at h
      obtain ⟨cs', hc, rfl⟩ := h
      simp only [agree_free]
      exact subst_list_agree_of (fun c hcm c' hcc => ih c hcm env ho c' hcc) hc
    · intro cs ih env ho f' h
      simp only [substitute_var, map_eq_ok] at h
      obtain ⟨cs', hc, rfl⟩ := h
      simp only [agree_free]
      exact subst_list_agree_of (fun c hcm c' hcc => ih c hcm env ho c' hcc) hc
    · intro b c ih env ho f' h
      simp only [substitute_var] at h
      by_cases hb : o ∈ b
      · simp [hb] at h
      · rw [if_neg hb, map_eq_ok] at h
        obtain ⟨c', hc, rfl⟩ := h
        simp only [agree_free, Bool.and_eq_true, decide_eq_true_eq]
        exact ⟨by trivial, ih (b ++ env) (by simp [ho]) c' hc⟩
    · intro b c ih env ho f' h
      simp only [substitute_var] at h
      by_cases hb : o ∈ b
      · simp [hb] at h
      · rw [if_neg hb, map_eq_ok] at h
        obtain ⟨c', hc, rfl⟩ := h
        simp only [agree_free, Bool.and_eq_true, decide_eq_true_eq]
        exact ⟨by trivial, ih (b ++ env) (by simp [ho]) c' hc⟩
    · intro env ho f' h
      simp only [substitute_var] at h
      cases h
      rfl
  intro f f' h env ho
  exact main f env ho f' h

theorem subst_err_val {o n : String} :
    ∀ f, ∀ e, substitute_var o n f = .error e → e = .recursiveBinding := by
  apply wff_induct
  · intro p ts e h
    simp [substitute_var] at h
  · intro c ih e h
    simp only [substitute_var, map_eq_err] at h
    exact ih e h
  · intro cs ih e h
    simp only [substitute_var, map_eq_err] at h
    induction cs with
    | nil => simp [substitute_var_list] at h
    | cons a t iht =>
      rw [subst_list_cons_err] at h
      rcases h with h | ⟨c', _, h⟩
      · exact ih a (by simp) e h
      · exact iht (fun c hc => ih c (by simp [hc])) h
  · intro cs ih e h
    simp only [substitute_var, map_eq_err] at h
    induction cs with
    | nil => simp [substitute_var_list] at h
    | cons a t iht =>
      rw [subst_list_cons_err] at h
      rcases h with h | ⟨c', _, h⟩
      · exact ih a (by simp) e h
      · exact iht (fun c hc => ih c (by simp [hc])) h
  · intro b c ih e h
    simp only [substitute_var] at h
    by_cases hb : o ∈ b
    · rw [if_pos hb] at h
      cases h
      rfl
    · rw [if_neg hb, map_eq_err] at h
      exact ih e h
  · intro b c ih e h
    simp only [substitute_var] at h
    by_cases hb : o ∈ b
    · rw [if_pos hb] at h
      cases h
      rfl
    · rw [if_neg hb, map_eq_err] at h
      exact ih e h
  · intro e h
    simp [substitute_var] at h

theorem subst_err_of_bound {o n : String} :
    ∀ f, o ∈ collect_bound f → substitute_var o n f = .error .recursiveBinding := by
  apply wff_induct
  · intro p ts h
    simp [collect_bound] at h
  · intro c ih h
    simp only [collect_bound] at h
    simp only [substitute_var]
    rw [ih h]
    rfl
  · intro cs ih h
    simp only [collect_bound] at h
    simp only [substitute_var]
    suffices hs : substitute_var_list o n cs = .error .recursiveBinding by
      rw [hs]
      rfl
    induction cs with
    | nil => simp [collect_bound_list] at h
    | cons a t iht =>
      simp only [collect_bound_list, List.mem_append] at h
      rcases h with h | h
      · rw [subst_list_cons_err]
        exact Or.inl (ih a (by simp) h)
      · cases ha : substitute_var o n a with
        | error e =>
          rw [subst_list_cons_err]
          have := subst_err_val a e ha
          subst this
          exact Or.inl ha
        | ok a' =>
          rw [subst_list_cons_err]
          exact Or.inr ⟨a', ha, iht (fun c hc => ih c (by simp [hc])) h⟩
  · intro cs ih h
    simp only [collect_bound] at h
    simp only [substitute_var]
    suffices hs : substitute_var_list o n cs = .error .recursiveBinding by
      rw [hs]
      rfl
    induction cs with
    | nil => simp [collect_bound_list] at h
    | cons a t iht =>
      simp only [collect_bound_list, List.mem_append] at h
      rcases h with h | h
      · rw [subst_list_cons_err]
        exact Or.inl (ih a (by simp) h)
      · cases ha : substitute_var o n a with
        | error e =>
          rw [subst_list_cons_err]
          have := subst_err_val a e ha
          subst this
          exact Or.inl ha
        | ok a' =>
          rw [subst_list_cons_err]
          exact Or.inr ⟨a', ha, iht (fun c hc => ih c (by simp [hc])) h⟩
  · intro b c ih h
    simp only [collect_bound, List.mem_append] at h
    simp only [substitute_var]
    by_cases hb : o ∈ b
    · rw [if_pos hb]
    · rw [if_neg hb]
      rcases h with h | h
      · exact absurd h hb
      · rw [ih h]
        rfl
  · intro b c ih h
    simp only [collect_bound, List.mem_append] at h
    simp only [substitute_var]
    by_cases hb : o ∈ b
    · rw [if_pos hb]
    · rw [if_neg hb]
      rcases h with h | h
      · exact absurd h hb
      · rw [ih h]
        rfl
  · intro h
    simp [collect_bound] at h

theorem subst_self_of_not_bound {o : String} :
    ∀ f, o ∉ collect_bound f → substitute_var o o f = .ok f := by
  apply wff_induct
  · intro p ts _
    simp [substitute_var, subst_terms_self]
  · intro c ih h
    simp only [collect_bound] at h
    simp only [substitute_var]
    rw [ih h]
    rfl
  · intro cs ih h
    simp only [collect_bound] at h
    simp only [substitute_var]
    suffices hs : substitute_var_list o o cs = .ok cs by
      rw [hs]
      rfl
    induction cs with
    | nil => rfl
    | cons a t iht =>
      simp only [collect_bound_list, List.mem_append] at h
      push_neg at h
      rw [subst_list_cons_ok]
      exact ⟨a, t, ih a (by simp) h.1, iht (fun c hc => ih c (by simp [hc])) h.2, rfl⟩
  · intro cs ih h
    simp only [collect_bound] at h
    simp only [substitute_var]
    suffices hs : substitute_var_list o o cs = .ok cs by
      rw [hs]
      rfl
    induction cs with
    | nil => rfl
    | cons a t iht =>
      simp only [collect_bound_list, List.mem_append] at h
      push_neg at h
      rw [subst_list_cons_ok]
      exact ⟨a, t, ih a (by simp) h.1, iht (fun c hc => ih c (by simp [hc])) h.2, rfl⟩
  · intro b c ih h
    simp only [collect_bound, List.mem_append] at h
    push_neg at h
    simp only [substitute_var]
    rw [if_neg h.1, ih h.2]
    rfl
  · intro b c ih h
    simp only [collect_bound, List.mem_append] at h
    push_neg at h
    simp only [substitute_var]
    rw [if_neg h.1, ih h.2]
    rfl
  · intro _
    simp [substitute_var]

theorem collect_bound_erase : ∀ f, collect_bound (erase_vars f) = collect_bound f := by
  apply wff_induct
  · intro p ts
    rfl
  · intro c ih
    simp only [erase_vars, collect_bound, ih]
  · intro cs ih
    simp only [erase_vars, collect_bound]
    induction cs with
    | nil => rfl
    | cons a t iht =>
      simp only [erase_vars_list, collect_bound_list]
      rw [ih a (by simp), iht (fun c hc => ih c (by simp [hc]))]
  · intro cs ih
    simp only [erase_vars, collect_bound]
    induction cs with
    | nil => rfl
    | cons a t iht =>
      simp only [erase_vars_list, collect_bound_list]
      rw [ih a (by simp), iht (fun c hc => ih c (by simp [hc]))]
  · intro b c ih
    simp only [erase_vars, collect_bound, ih]
  · intro b c ih
    simp only [erase_vars, collect_bound, ih]
  · rfl

theorem rebinds_erase : ∀ f, ∀ env, rebinds env (erase_vars f) = rebinds env f := by
  apply wff_induct
  · intro p ts env
    rfl
  · intro c ih env
    simp only [erase_vars, rebinds, ih]
  · intro cs ih env
    simp only [erase_vars, rebinds]
    induction cs with
    | nil => rfl
    | cons a t iht =>
      simp only [erase_vars_list, rebinds_list]
      rw [ih a (by simp), iht (fun c hc => ih c (by simp [hc]))]
  · intro cs ih env
    simp only [erase_vars, rebinds]
    induction cs with
    | nil => rfl
    | cons a t iht =>
      simp only [erase_vars_list, rebinds_list]
      rw [ih a (by simp), iht (fun c hc => ih c (by simp [hc]))]
  · intro b c ih env
    simp only [erase_vars, rebinds, ih]
  · intro b c ih env
    simp only [erase_vars, rebinds, ih]
  · intro env
    rfl

theorem subst_collect {o n : String} {f f' : WFF} (h : substitute_var o n f = .ok f') :
    collect_bound f' = collect_bound f := by
  rw [← collect_bound_erase f', subst_erase f f' h, collect_bound_erase]

theorem subst_rebinds {o n : String} {f f' : WFF} (h : substitute_var o n f = .ok f')
    (env : List String) : rebinds env f' = rebinds env f := by
  rw [← rebinds_erase f', subst_erase f f' h, rebinds_erase]

theorem subst_ok_of_not_bound {o n : String} :
    ∀ f, o ∉ collect_bound f → ∃ f', substitute_var o n f = .ok f' := by
  intro f h
  cases hs : substitute_var o n f with
  | ok f' => exact ⟨f', rfl⟩
  | error e =>
    exfalso
    have he := subst_err_val f e hs
    subst he
    -- an error can only come from a rebinding quantifier; show this needs o bound
    revert hs h
    revert f
    apply wff_induct
    · intro p ts h hs
      simp [substitute_var] at hs
    · intro c ih h hs
      simp only [collect_bound] at h
      simp only [substitute_var, map_eq_err] at hs
      exact ih h hs
    · intro cs ih h hs
      simp only [collect_bound] at h
      simp only [substitute_var, map_eq_err] at hs
      induction cs with
      | nil => simp [substitute_var_list] at hs
      | cons a t iht =>
        simp only [collect_bound_list, List.mem_append] at h
        push_neg at h
        rw [subst_list_cons_err] at hs
        rcases hs with hs | ⟨c', _, hs⟩
        · exact ih a (by simp) h.1 hs
        · exact iht (fun c hc => ih c (by simp [hc])) h.2 hs
    · intro cs ih h hs
      simp only [collect_bound] at h
      simp only [substitute_var, map_eq_err] at hs
      induction cs with
      | nil => simp [substitute_var_list] at hs
      | cons a t iht =>
        simp only [collect_bound_list, List.mem_append] at h
        push_neg at h
        rw [subst_list_cons_err] at hs
        rcases hs with hs | ⟨c', _, hs⟩
        · exact ih a (by simp) h.1 hs
        · exact iht (fun c hc => ih c (by simp [hc])) h.2 hs
    · intro b c ih h hs
      simp only [collect_bound, List.mem_append] at h
      push_neg at h
      simp only [substitute_var] at hs
      rw [if_neg h.1, map_eq_err] at hs
      exact ih h.2 hs
    · intro b c ih h hs
      simp only [collect_bound, List.mem_append] at h
      push_neg at h
      simp only [substitute_var] at hs
      rw [if_neg h.1, map_eq_err] at hs
      exact ih h.2 hs
    · intro h hs
      simp [substitute_var] at hs

/-! Reflexivity and (erase-guarded) transitivity of `agree_free`. -/

theorem agree_free_refl : ∀ f, ∀ env, agree_free env f f = true := by
  apply wff_induct
  · intro p ts env
    simp only [agree_free, Bool.and_eq_true, decide_eq_true_eq]
    exact ⟨by trivial, agree_free_terms_refl env ts⟩
  · intro c ih env
    simp only [agree_free]
    exact ih env
  · intro cs ih env
    simp only [agree_free]
    induction cs with
    | nil => rfl
    | cons a t iht =>
      simp only [agree_free_list, Bool.and_eq_true]
      exact ⟨ih a (by simp) env, iht (fun c hc => ih c (by simp [hc]))⟩
  · intro cs ih env
    simp only [agree_free]
    induction cs with
    | nil => rfl
    | cons a t iht =>
      simp only [agree_free_list, Bool.and_eq_true]
      exact ⟨ih a (by simp) env, iht (fun c hc => ih c (by simp [hc]))⟩
  · intro b c ih env
    simp only [agree_free, Bool.and_eq_true, decide_eq_true_eq]
    exact ⟨by trivial, ih (b ++ env)⟩
  · intro b c ih env
    simp only [agree_free, Bool.and_eq_true, decide_eq_true_eq]
    exact ⟨by trivial, ih (b ++ env)⟩
  · intro env
    rfl

theorem agree_free_list_refl (cs : List WFF) (env : List String) :
    agree_free_list env cs cs = true := by
  induction cs with
  | nil => rfl
  | cons a t ih =>
    simp only [agree_free_list, Bool.and_eq_true]
    exact ⟨agree_free_refl a env, ih⟩

theorem agree_free_list_trans_of {env : List String} {as bs cs : List WFF}
    (hpt : ∀ a ∈ as, ∀ b c env', erase_vars a = erase_vars b →
      agree_free env' a b = true → agree_free env' b c = true → agree_free env' a c = true)
    (hskel : erase_vars_list as = erase_vars_list bs)
    (hab : agree_free_list env as bs = true) (hbc : agree_free_list env bs cs = true) :
    agree_free_list env as cs = true := by
  induction as generalizing bs cs with
  | nil =>
    cases bs with
    | nil =>
      cases cs with
      | nil => rfl
      | cons _ _ => simp [agree_free_list] at hbc
    | cons _ _ => simp [agree_free_list] at hab
  | cons x l ih =>
    cases bs with
    | nil => simp [agree_free_list] at hab
    | cons y m =>
      cases cs with
      | nil => simp [agree_free_list] at hbc
      | cons z k =>
        simp only [erase_vars_list, List.cons.injEq] at hskel
        simp only [agree_free_list, Bool.and_eq_true] at hab hbc ⊢
        refine ⟨hpt x (by simp) y z env hskel.1 hab.1 hbc.1, ?_⟩
        exact ih (fun a ha => hpt a (by simp [ha])) hskel.2 hab.2 hbc.2

theorem agree_free_trans : ∀ a b c (env : List String), erase_vars a = erase_vars b →
    agree_free env a b = true → agree_free env b c = true → agree_free env a c = true := by
  have main : ∀ a, ∀ b c env, erase_vars a = erase_vars b →
      agree_free env a b = true → agree_free env b c = true →
      agree_free env a c = true := by
    apply wff_induct
    · intro p ts b c env hskel hab hbc
      cases b with
      | atomic p' ts' =>
        cases c with
        | atomic p'' ts'' =>
          simp only [agree_free, Bool.and_eq_true, decide_eq_true_eq] at hab hbc ⊢
          obtain ⟨rfl, h1⟩ := hab
          obtain ⟨rfl, h2⟩ := hbc
          exact ⟨rfl, agree_free_terms_trans h1 h2⟩
        | _ => simp [agree_free] at hbc
      | _ => simp [agree_free] at hab
    · intro a ih b c env hskel hab hbc
      cases b with
      | not b' =>
        cases c with
        | not c' =>
          simp only [agree_free] at hab hbc ⊢
          simp only [erase_vars, WFF.not.injEq] at hskel
          exact ih b' c' env hskel hab hbc
        | _ => simp [agree_free] at hbc
      | _ => simp [agree_free] at hab
    · intro as ih b c env hskel hab hbc
      cases b with
      | and bs =>
        cases c with
        | and cs =>
          simp only [agree_free] at hab hbc ⊢
          simp only [erase_vars, WFF.and.injEq] at hskel
          exact agree_free_list_trans_of ih hskel hab hbc
        | _ => simp [agree_free] at hbc
      | _ => simp [agree_free] at hab
    · intro as ih b c env hskel hab hbc
      cases b with
      | or bs =>
        cases c with
        | or cs =>
          simp only [agree_free] at hab hbc ⊢
          simp only [erase_vars, WFF.or.injEq] at hskel
          exact agree_free_list_trans_of ih hskel hab hbc
        | _ => simp [agree_free] at hbc
      | _ => simp [agree_free] at hab
    · intro bl a ih b c env hskel hab hbc
      cases b with
      | forAll bl' b' =>
        cases c with
        | forAll bl'' c' =>
          simp only [agree_free, Bool.and_eq_true, decide_eq_true_eq] at hab hbc ⊢
          simp only [erase_vars, WFF.forAll.injEq] at hskel
          obtain ⟨rfl, hskel2⟩ := hskel
          refine ⟨by omega, ?_⟩
          exact ih b' c' (bl ++ env) hskel2 hab.2 hbc.2
        | _ => simp [agree_free] at hbc
      | _ => simp [agree_free] at hab
    · intro bl a ih b c env hskel hab hbc
      cases b with
      | thereExists bl' b' =>
        cases c with
        | thereExists bl'' c' =>
          simp only [agree_free, Bool.and_eq_true, decide_eq_true_eq] at hab hbc ⊢
          simp only [erase_vars, WFF.thereExists.injEq] at hskel
          obtain ⟨rfl, hskel2⟩ := hskel
          refine ⟨by omega, ?_⟩
          exact ih b' c' (bl ++ env) hskel2 hab.2 hbc.2
        | _ => simp [agree_free] at hbc
      | _ => simp [agree_free] at hab
    · intro b c env hskel hab hbc
      cases b with
      | unknown =>
        cases c with
        | unknown => rfl
        | _ => simp [agree_free] at hbc
      | _ => simp [agree_free] at hab
  exact main

/-! Lemmas about `svf_quant`. -/

theorem svf_quant_cons_ok {n : String} {rest : List String} {c : WFF} {used ms : List String}
    {c' : WFF} {u' : List String} :
    svf_quant (n :: rest) c used = .ok (ms, c', u') ↔
      ∃ child' ms1, substitute_var n (freshen used n) c = .ok child' ∧
        svf_quant rest child' (freshen used n :: used) = .ok (ms1, c', u') ∧
        ms = freshen used n :: ms1 := by
  constructor
  · intro h
    simp only [svf_quant] at h
    cases hs : substitute_var n (freshen used n) c with
    | error e => rw [hs] at h; cases h
    | ok child' =>
      rw [hs] at h
      dsimp only at h
      cases hq : svf_quant rest child' (freshen used n :: used) with
      | error e => rw [hq] at h; cases h
      | ok r =>
        obtain ⟨ms1, c1, u1⟩ := r
        rw [hq] at h
        simp at h
        obtain ⟨h1, h2, h3⟩ := h
        exact ⟨child', ms1, rfl, by rw [hq, h2, h3], h1.symm⟩
  · rintro ⟨child', ms1, hs, hq, rfl⟩
    simp only [svf_quant]
    rw [hs]
    dsimp only
    rw [hq]

theorem svf_quant_cons_err {n : String} {rest : List String} {c : WFF} {used : List String}
    {e : Err} :
    svf_quant (n :: rest) c used = .error e ↔
      substitute_var n (freshen used n) c = .error e ∨
        ∃ child', substitute_var n (freshen used n) c = .ok child' ∧
          svf_quant rest child' (freshen used n :: used) = .error e := by
  constructor
  · intro h
    simp only [svf_quant] at h
    cases hs : substitute_var n (freshen used n) c with
    | error e' =>
      rw [hs] at h
      cases h
      exact Or.inl rfl
    | ok child' =>
      rw [hs] at h
      dsimp only at h
      cases hq : svf_quant rest child' (freshen used n :: used) with
      | error e' =>
        rw [hq] at h
        cases h
        exact Or.inr ⟨child', rfl, hq⟩
      | ok r =>
        obtain ⟨ms1, c1, u1⟩ := r
        rw [hq] at h
        cases h
  · rintro (h | ⟨child', hs, hq⟩)
    · simp only [svf_quant]
      rw [h]
    · simp only [svf_quant]
      rw [hs]
      dsimp only
      rw [hq]

theorem svf_quant_spec : ∀ (b : List String) (c : WFF) (used ms : List String) (c' : WFF)
    (u' : List String), svf_quant b c used = .ok (ms, c', u') →
      u' = ms.reverse ++ used ∧ ms.length = b.length ∧ erase_vars c' = erase_vars c := by
  intro b
  induction b with
  | nil =>
    intro c used ms c' u' h
    simp [svf_quant] at h
    obtain ⟨h1, h2, h3⟩ := h
    subst h1
    subst h2
    subst h3
    simp
  | cons n rest ih =>
    intro c used ms c' u' h
    rw [svf_quant_cons_ok] at h
    obtain ⟨child', ms1, hs, hq, rfl⟩ := h
    obtain ⟨h1, h2, h3⟩ := ih child' _ ms1 c' u' hq
    refine ⟨?_, by simp [h2], by rw [h3, subst_erase c child' hs]⟩
    rw [h1]
    simp

theorem svf_quant_nodup : ∀ (b : List String) (c : WFF) (used ms : List String) (c' : WFF)
    (u' : List String), svf_quant b c used = .ok (ms, c', u') → used.Nodup → u'.Nodup := by
  intro b
  induction b with
  | nil =>
    intro c used ms c' u' h hd
    simp [svf_quant] at h
    obtain ⟨_, _, h3⟩ := h
    subst h3
    exact hd
  | cons n rest ih =>
    intro c used ms c' u' h hd
    rw [svf_quant_cons_ok] at h
    obtain ⟨child', ms1, hs, hq, rfl⟩ := h
    refine ih child' _ ms1 c' u' hq ?_
    exact List.Nodup.cons (freshen_not_mem used n) hd

theorem svf_quant_agree : ∀ (b : List String) (c : WFF) (used ms : List String) (c' : WFF)
    (u' : List String), svf_quant b c used = .ok (ms, c', u') →
      ∀ env : List String, (∀ x ∈ b, x ∈ env) → agree_free env c c' = true := by
  intro b
  induction b with
  | nil =>
    intro c used ms c' u' h env _
    simp [svf_quant] at h
    rw [← h.2.1]
    exact agree_free_refl c env
  | cons n rest ih =>
    intro c used ms c' u' h env henv
    rw [svf_quant_cons_ok] at h
    obtain ⟨child', ms1, hs, hq, rfl⟩ := h
    have h1 : agree_free env c child' = true :=
      subst_agree c child' hs env (henv n (by simp))
    have h2 : agree_free env child' c' = true :=
      ih child' _ ms1 c' u' hq env (fun x hx => henv x (by simp [hx]))
    exact agree_free_trans c child' c' env (subst_erase c child' hs).symm h1 h2

theorem svf_quant_err_val : ∀ (b : List String) (c : WFF) (used : List String) (e : Err),
    svf_quant b c used = .error e → e = .recursiveBinding := by
  intro b
  induction b with
  | nil =>
    intro c used e h
    simp [svf_quant] at h
  | cons n rest ih =>
    intro c used e h
    rw [svf_quant_cons_err] at h
    rcases h with h | ⟨child', _, h⟩
    · exact subst_err_val c e h
    · exact ih child' _ e h

theorem svf_quant_err_of_hit : ∀ (b : List String) (c : WFF) (used : List String),
    (∃ n ∈ b, n ∈ collect_bound c) → svf_quant b c used = .error .recursiveBinding := by
  intro b
  induction b with
  | nil =>
    intro c used h
    simp at h
  | cons n rest ih =>
    intro c used h
    by_cases hn : n ∈ collect_bound c
    · rw [svf_quant_cons_err]
      exact Or.inl (subst_err_of_bound c hn)
    · obtain ⟨m, hm, hmc⟩ := h
      rcases List.mem_cons.mp hm with rfl | hm'
      · exact absurd hmc hn
      · obtain ⟨child', hs⟩ := subst_ok_of_not_bound c hn
        rw [svf_quant_cons_err]
        refine Or.inr ⟨child', hs, ?_⟩
        apply ih
        refine ⟨m, hm', ?_⟩
        rw [subst_collect hs]
        exact hmc

theorem svf_quant_self : ∀ (b : List String) (c : WFF) (used : List String),
    b.Nodup → (∀ n ∈ b, n ∉ used) → (∀ n ∈ b, n ∉ collect_bound c) →
    svf_quant b c used = .ok (b, c, b.reverse ++ used) := by
  intro b
  induction b with
  | nil =>
    intro c used _ _ _
    simp [svf_quant]
  | cons n rest ih =>
    intro c used hd hu hb
    have hn : freshen used n = n := freshen_of_not_mem (hu n (by simp))
    have hs : substitute_var n (freshen used n) c = .ok c := by
      rw [hn]
      exact subst_self_of_not_bound c (hb n (by simp))
    rw [svf_quant_cons_ok]
    refine ⟨c, rest, hs, ?_, by rw [hn]⟩
    have hq := ih c (freshen used n :: used) (List.Nodup.of_cons hd)
      (fun x hx => by
        rw [hn]
        simp only [List.mem_cons, not_or]
        constructor
        · intro hxn
          subst hxn
          exact (List.nodup_cons.mp hd).1 hx
        · exact hu x (by simp [hx]))
      (fun x hx => hb x (by simp [hx]))
    rw [hq, hn]
    simp

/-! Main invariants of the standardizer traversal `svf_go`. -/

theorem svf_err_main : ∀ N : Nat,
    (∀ (f : WFF) (used : List String) (e : Err), 2 * wsize f ≤ N →
      svf_go f used = .error e → e = .recursiveBinding) ∧
    (∀ (cs : List WFF) (used : List String) (e : Err), 2 * wsizeList cs + 1 ≤ N →
      svf_go_list cs used = .error e → e = .recursiveBinding) := by
  intro N
  induction N using Nat.strong_induction_on with
  | _ N ih =>
    constructor
    · intro f used e hN h
      cases f with
      | atomic p ts => rw [svf_go_atomic] at h; cases h
      | unknown => rw [svf_go_unknown] at h; cases h
      | not c =>
        rw [svf_go_not] at h
        cases hg : svf_go c used with
        | error e' =>
          rw [hg] at h
          cases h
          have hb : 2 * wsize c ≤ N - 1 := by simp [wsize] at hN; omega
          have hN1 : N - 1 < N := by
            have := wsize_pos c
            omega
          exact (ih (N - 1) hN1).1 c used e hb hg
        | ok r =>
          obtain ⟨c', u'⟩ := r
          rw [hg] at h
          cases h
      | and cs =>
        rw [svf_go_and] at h
        cases hg : svf_go_list cs used with
        | error e' =>
          rw [hg] at h
          cases h
          have hb : 2 * wsizeList cs + 1 ≤ N - 1 := by simp [wsize] at hN; omega
          have hN1 : N - 1 < N := by simp [wsize] at hN; omega
          exact (ih (N - 1) hN1).2 cs used e hb hg
        | ok r =>
          obtain ⟨cs', u'⟩ := r
          rw [hg] at h
          cases h
      | or cs =>
        rw [svf_go_or] at h
        cases hg : svf_go_list cs used with
        | error e' =>
          rw [hg] at h
          cases h
          have hb : 2 * wsizeList cs + 1 ≤ N - 1 := by simp [wsize] at hN; omega
          have hN1 : N - 1 < N := by simp [wsize] at hN; omega
          exact (ih (N - 1) hN1).2 cs used e hb hg
        | ok r =>
          obtain ⟨cs', u'⟩ := r
          rw [hg] at h
          cases h
      | forAll b c =>
        cases hq : svf_quant b c used with
        | error e' =>
          rw [svf_go_forAll_err hq] at h
          cases h
          exact svf_quant_err_val b c used e hq
        | ok r =>
          obtain ⟨ms, c', u1⟩ := r
          rw [svf_go_forAll_ok hq] at h
          cases hg : svf_go c' u1 with
          | error e' =>
            rw [hg] at h
            cases h
            have hw := svf_quant_wsize _ _ _ _ _ _ hq
            have hb : 2 * wsize c' ≤ N - 1 := by simp [wsize] at hN; omega
            have hN1 : N - 1 < N := by
              have := wsize_pos c
              simp [wsize] at hN
              omega
            exact (ih (N - 1) hN1).1 c' u1 e hb hg
          | ok r' =>
            obtain ⟨c'', u'⟩ := r'
            rw [hg] at h
            cases h
      | thereExists b c =>
        cases hq : svf_quant b c used with
        | error e' =>
          rw [svf_go_thereExists_err hq] at h
          cases h
          exact svf_quant_err_val b c used e hq
        | ok r =>
          obtain ⟨ms, c', u1⟩ := r
          rw [svf_go_thereExists_ok hq] at h
          cases hg : svf_go c' u1 with
          | error e' =>
            rw [hg] at h
            cases h
            have hw := svf_quant_wsize _ _ _ _ _ _ hq
            have hb : 2 * wsize c' ≤ N - 1 := by simp [wsize] at hN; omega
            have hN1 : N - 1 < N := by
              have := wsize_pos c
              simp [wsize] at hN
              omega
            exact (ih (N - 1) hN1).1 c' u1 e hb hg
          | ok r' =>
            obtain ⟨c'', u'⟩ := r'
            rw [hg] at h
            cases h
    · intro cs used e hN h
      cases cs with
      | nil => rw [svf_go_list_nil] at h; cases h
      | cons c t =>
        rw [svf_go_list_cons] at h
        have hc : 2 * wsize c ≤ N - 1 := by simp [wsizeList] at hN; omega
        have ht : 2 * wsizeList t + 1 ≤ N - 1 := by
          have := wsize_pos c
          simp [wsizeList] at hN
          omega
        have hN1 : N - 1 < N := by
          have := wsize_pos c
          simp [wsizeList] at hN
          omega
        cases hg : svf_go c used with
        | error e' =>
          rw [hg] at h
          cases h
          exact (ih (N - 1) hN1).1 c used e hc hg
        | ok r =>
          obtain ⟨c', u1⟩ := r
          rw [hg] at h
          dsimp only at h
          cases hg2 : svf_go_list t u1 with
          | error e' =>
            rw [hg2] at h
            cases h
            exact (ih (N - 1) hN1).2 t u1 e ht hg2
          | ok r' =>
            obtain ⟨cs', u'⟩ := r'
            rw [hg2] at h
            cases h

theorem svf_go_err_val {f : WFF} {used : List String} {e : Err}
    (h : svf_go f used = .error e) : e = .recursiveBinding :=
  (svf_err_main (2 * wsize f)).1 f used e le_rfl h

theorem svf_go_list_err_val {cs : List WFF} {used : List String} {e : Err}
    (h : svf_go_list cs used = .error e) : e = .recursiveBinding :=
  (svf_err_main (2 * wsizeList cs + 1)).2 cs used e le_rfl h

theorem svf_used_main : ∀ N : Nat,
    (∀ (f : WFF) (used : List String) (g : WFF) (u' : List String), 2 * wsize f ≤ N →
      svf_go f used = .ok (g, u') →
      u' = (collect_bound g).reverse ++ used ∧ (used.Nodup → u'.Nodup)) ∧
    (∀ (cs : List WFF) (used : List String) (gs : List WFF) (u' : List String),
      2 * wsizeList cs + 1 ≤ N → svf_go_list cs used = .ok (gs, u') →
      u' = (collect_bound_list gs).reverse ++ used ∧ (used.Nodup → u'.Nodup)) := by
  intro N
  induction N using Nat.strong_induction_on with
  | _ N ih =>
    constructor
    · intro f used g u' hN h
      cases f with
      | atomic p ts =>
        rw [svf_go_atomic] at h
        cases h
        simp [collect_bound]
      | unknown =>
        rw [svf_go_unknown] at h
        cases h
        simp [collect_bound]
      | not c =>
        rw [svf_go_not] at h
        cases hg : svf_go c used with
        | error e => rw [hg] at h; cases h
        | ok r =>
          obtain ⟨c1, u1⟩ := r
          rw [hg] at h
          cases h
          have hb : 2 * wsize c ≤ N - 1 := by simp [wsize] at hN; omega
          have hN1 : N - 1 < N := by
            have := wsize_pos c
            omega
          have := (ih (N - 1) hN1).1 c used c1 u' hb hg
          simpa [collect_bound] using this
      | and cs =>
        rw [svf_go_and] at h
        cases hg : svf_go_list cs used with
        | error e => rw [hg] at h; cases h
        | ok r =>
          obtain ⟨cs1, u1⟩ := r
          rw [hg] at h
          cases h
          have hb : 2 * wsizeList cs + 1 ≤ N - 1 := by simp [wsize] at hN; omega
          have hN1 : N - 1 < N := by simp [wsize] at hN; omega
          have := (ih (N - 1) hN1).2 cs used cs1 u' hb hg
          simpa [collect_bound] using this
      | or cs =>
        rw [svf_go_or] at h
        cases hg : svf_go_list cs used with
        | error e => rw [hg] at h; cases h
        | ok r =>
          obtain ⟨cs1, u1⟩ := r
          rw [hg] at h
          cases h
          have hb : 2 * wsizeList cs + 1 ≤ N - 1 := by simp [wsize] at hN; omega
          have hN1 : N - 1 < N := by simp [wsize] at hN; omega
          have := (ih (N - 1) hN1).2 cs used cs1 u' hb hg
          simpa [collect_bound] using this
      | forAll b c =>
        cases hq : svf_quant b c used with
        | error e =>
          rw [svf_go_forAll_err hq] at h
          cases h
        | ok r =>
          obtain ⟨ms, c', u1⟩ := r
          rw [svf_go_forAll_ok hq] at h
          cases hg : svf_go c' u1 with
          | error e => rw [hg] at h; cases h
          | ok r' =>
            obtain ⟨c'', u2⟩ := r'
            rw [hg] at h
            cases h
            have hqs := svf_quant_spec b c used ms c' u1 hq
            have hqd := svf_quant_nodup b c used ms c' u1 hq
            have hw := svf_quant_wsize _ _ _ _ _ _ hq
            have hb : 2 * wsize c' ≤ N - 1 := by simp [wsize] at hN; omega
            have hN1 : N - 1 < N := by
              have := wsize_pos c
              simp [wsize] at hN
              omega
            have hrec := (ih (N - 1) hN1).1 c' u1 c'' u' hb hg
            constructor
            · rw [hrec.1, hqs.1]
              simp [collect_bound]
            · intro hd
              exact hrec.2 (hqd hd)
      | thereExists b c =>
        cases hq : svf_quant b c used with
        | error e =>
          rw [svf_go_thereExists_err hq] at h
          cases h
        | ok r =>
          obtain ⟨ms, c', u1⟩ := r
          rw [svf_go_thereExists_ok hq] at h
          cases hg : svf_go c' u1 with
          | error e => rw [hg] at h; cases h
          | ok r' =>
            obtain ⟨c'', u2⟩ := r'
            rw [hg] at h
            cases h
            have hqs := svf_quant_spec b c used ms c' u1 hq
            have hqd := svf_quant_nodup b c used ms c' u1 hq
            have hw := svf_quant_wsize _ _ _ _ _ _ hq
            have hb : 2 * wsize c' ≤ N - 1 := by simp [wsize] at hN; omega
            have hN1 : N - 1 < N := by
              have := wsize_pos c
              simp [wsize] at hN
              omega
            have hrec := (ih (N - 1) hN1).1 c' u1 c'' u' hb hg
            constructor
            · rw [hrec.1, hqs.1]
              simp [collect_bound]
            · intro hd
              exact hrec.2 (hqd hd)
    · intro cs used gs u' hN h
      cases cs with
      | nil =>
        rw [svf_go_list_nil] at h
        cases h
        simp [collect_bound_list]
      | cons c t =>
        rw [svf_go_list_cons] at h
        have hc : 2 * wsize c ≤ N - 1 := by simp [wsizeList] at hN; omega
        have ht : 2 * wsizeList t + 1 ≤ N - 1 := by
          have := wsize_pos c
          simp [wsizeList] at hN
          omega
        have hN1 : N - 1 < N := by
          have := wsize_pos c
          simp [wsizeList] at hN
          omega
        cases hg : svf_go c used with
        | error e => rw [hg] at h; cases h
        | ok r =>
          obtain ⟨c1, u1⟩ := r
          rw [hg] at h
          dsimp only at h
          cases hg2 : svf_go_list t u1 with
          | error e => rw [hg2] at h; cases h
          | ok r' =>
            obtain ⟨ts1, u2⟩ := r'
            rw [hg2] at h
            cases h
            have hr1 := (ih (N - 1) hN1).1 c used c1 u1 hc hg
            have hr2 := (ih (N - 1) hN1).2 t u1 ts1 u' ht hg2
            constructor
            · rw [hr2.1, hr1.1]
              simp [collect_bound_list]
            · intro hd
              exact hr2.2 (hr1.2 hd)

theorem svf_go_used {f : WFF} {used : List String} {g : WFF} {u' : List String}
    (h : svf_go f used = .ok (g, u')) :
    u' = (collect_bound g).reverse ++ used ∧ (used.Nodup → u'.Nodup) :=
  (svf_used_main (2 * wsize f)).1 f used g u' le_rfl h

theorem svf_agree_main : ∀ N : Nat,
    (∀ (f : WFF) (used : List String) (g : WFF) (u' : List String), 2 * wsize f ≤ N →
      svf_go f used = .ok (g, u') → ∀ env : List String, agree_free env f g = true) ∧
    (∀ (cs : List WFF) (used : List String) (gs : List WFF) (u' : List String),
      2 * wsizeList cs + 1 ≤ N → svf_go_list cs used = .ok (gs, u') →
      ∀ env : List String, agree_free_list env cs gs = true) := by
  intro N
  induction N using Nat.strong_induction_on with
  | _ N ih =>
    constructor
    · intro f used g u' hN h env
      cases f with
      | atomic p ts =>
        rw [svf_go_atomic] at h
        cases h
        exact agree_free_refl _ env
      | unknown =>
        rw [svf_go_unknown] at h
        cases h
        rfl
      | not c =>
        rw [svf_go_not] at h
        cases hg : svf_go c used with
        | error e => rw [hg] at h; cases h
        | ok r =>
          obtain ⟨c1, u1⟩ := r
          rw [hg] at h
          cases h
          have hb : 2 * wsize c ≤ N - 1 := by simp [wsize] at hN; omega
          have hN1 : N - 1 < N := by
            have := wsize_pos c
            omega
          simp only [agree_free]
          exact (ih (N - 1) hN1).1 c used c1 u' hb hg env
      | and cs =>
        rw [svf_go_and] at h
        cases hg : svf_go_list cs used with
        | error e => rw [hg] at h; cases h
        | ok r =>
          obtain ⟨cs1, u1⟩ := r
          rw [hg] at h
          cases h
          have hb : 2 * wsizeList cs + 1 ≤ N - 1 := by simp [wsize] at hN; omega
          have hN1 : N - 1 < N := by simp [wsize] at hN; omega
          simp only [agree_free]
          exact (ih (N - 1) hN1).2 cs used cs1 u' hb hg env
      | or cs =>
        rw [svf_go_or] at h
        cases hg : svf_go_list cs used with
        | error e => rw [hg] at h; cases h
        | ok r =>
          obtain ⟨cs1, u1⟩ := r
          rw [hg] at h
          cases h
          have hb : 2 * wsizeList cs + 1 ≤ N - 1 := by simp [wsize] at hN; omega
          have hN1 : N - 1 < N := by simp [wsize] at hN; omega
          simp only [agree_free]
          exact (ih (N - 1) hN1).2 cs used cs1 u' hb hg env
      | forAll b c =>
        cases hq : svf_quant b c used with
        | error e =>
          rw [svf_go_forAll_err hq] at h
          cases h
        | ok r =>
          obtain ⟨ms, c', u1⟩ := r
          rw [svf_go_forAll_ok hq] at h
          cases hg : svf_go c' u1 with
          | error e => rw [hg] at h; cases h
          | ok r' =>
            obtain ⟨c'', u2⟩ := r'
            rw [hg] at h
            cases h
            have hqs := svf_quant_spec b c used ms c' u1 hq
            have hw := svf_quant_wsize _ _ _ _ _ _ hq
            have hb : 2 * wsize c' ≤ N - 1 := by simp [wsize] at hN; omega
            have hN1 : N - 1 < N := by
              have := wsize_pos c
              simp [wsize] at hN
              omega
            have h1 : agree_free (b ++ env) c c' = true :=
              svf_quant_agree b c used ms c' u1 hq (b ++ env) (fun x hx => by simp [hx])
            have h2 : agree_free (b ++ env) c' c'' = true :=
              (ih (N - 1) hN1).1 c' u1 c'' u' hb hg (b ++ env)
            simp only [agree_free, Bool.and_eq_true, decide_eq_true_eq]
            refine ⟨hqs.2.1.symm, ?_⟩
            exact agree_free_trans c c' c'' (b ++ env) hqs.2.2.symm h1 h2
      | thereExists b c =>
        cases hq : svf_quant b c used with
        | error e =>
          rw [svf_go_thereExists_err hq] at h
          cases h
        | ok r =>
          obtain ⟨ms, c', u1⟩ := r
          rw [svf_go_thereExists_ok hq] at h
          cases hg : svf_go c' u1 with
          | error e => rw [hg] at h; cases h
          | ok r' =>
            obtain ⟨c'', u2⟩ := r'
            rw [hg] at h
            cases h
            have hqs := svf_quant_spec b c used ms c' u1 hq
            have hw := svf_quant_wsize _ _ _ _ _ _ hq
            have hb : 2 * wsize c' ≤ N - 1 := by simp [wsize] at hN; omega
            have hN1 : N - 1 < N := by
              have := wsize_pos c
              simp [wsize] at hN
              omega
            have h1 : agree_free (b ++ env) c c' = true :=
              svf_quant_agree b c used ms c' u1 hq (b ++ env) (fun x hx => by simp [hx])
            have h2 : agree_free (b ++ env) c' c'' = true :=
              (ih (N - 1) hN1).1 c' u1 c'' u' hb hg (b ++ env)
            simp only [agree_free, Bool.and_eq_true, decide_eq_true_eq]
            refine ⟨hqs.2.1.symm, ?_⟩
            exact agree_free_trans c c' c'' (b ++ env) hqs.2.2.symm h1 h2
    · intro cs used gs u' hN h env
      cases cs with
      | nil =>
        rw [svf_go_list_nil] at h
        cases h
        rfl
      | cons c t =>
        rw [svf_go_list_cons] at h
        have hc : 2 * wsize c ≤ N - 1 := by simp [wsizeList] at hN; omega
        have ht : 2 * wsizeList t + 1 ≤ N - 1 := by
          have := wsize_pos c
          simp [wsizeList] at hN
          omega
        have hN1 : N - 1 < N := by
          have := wsize_pos c
          simp [wsizeList] at hN
          omega
        cases hg : svf_go c used with
        | error e => rw [hg] at h; cases h
        | ok r =>
          obtain ⟨c1, u1⟩ := r
          rw [hg] at h
          dsimp only at h
          cases hg2 : svf_go_list t u1 with
          | error e => rw [hg2] at h; cases h
          | ok r' =>
            obtain ⟨ts1, u2⟩ := r'
            rw [hg2] at h
            cases h
            simp only [agree_free_list, Bool.and_eq_true]
            exact ⟨(ih (N - 1) hN1).1 c used c1 u1 hc hg env,
              (ih (N - 1) hN1).2 t u1 ts1 u' ht hg2 env⟩

theorem svf_go_agree {f : WFF} {used : List String} {g : WFF} {u' : List String}
    (h : svf_go f used = .ok (g, u')) (env : List String) : agree_free env f g = true :=
  (svf_agree_main (2 * wsize f)).1 f used g u' le_rfl h env

theorem rebinds_list_iff_of {cs : List WFF}
    (hpt : ∀ c ∈ cs, ∀ env : List String, rebinds env c = true ↔
      ((∃ x ∈ collect_bound c, x ∈ env) ∨ rebinds [] c = true)) :
    ∀ env : List String, rebinds_list env cs = true ↔
      ((∃ x ∈ collect_bound_list cs, x ∈ env) ∨ rebinds_list [] cs = true) := by
  induction cs with
  | nil =>
    intro env
    simp [rebinds_list, collect_bound_list]
  | cons a t ih =>
    intro env
    simp only [rebinds_list, collect_bound_list, Bool.or_eq_true, List.mem_append]
    rw [hpt a (by simp) env, ih (fun c hc => hpt c (by simp [hc])) env]
    constructor
    · rintro ((⟨x, hx1, hx2⟩ | h) | (⟨x, hx1, hx2⟩ | h))
      · exact Or.inl ⟨x, Or.inl hx1, hx2⟩
      · exact Or.inr (Or.inl h)
      · exact Or.inl ⟨x, Or.inr hx1, hx2⟩
      · exact Or.inr (Or.inr h)
    · rintro (⟨x, hx1 | hx1, hx2⟩ | (h | h))
      · exact Or.inl (Or.inl ⟨x, hx1, hx2⟩)
      · exact Or.inr (Or.inl ⟨x, hx1, hx2⟩)
      · exact Or.inl (Or.inr h)
      · exact Or.inr (Or.inr h)

theorem rebinds_iff : ∀ f : WFF, ∀ env : List String, rebinds env f = true ↔
    ((∃ x ∈ collect_bound f, x ∈ env) ∨ rebinds [] f = true) := by
  apply wff_induct
  · intro p ts env
    simp [rebinds, collect_bound]
  · intro c ih env
    simp only [rebinds, collect_bound]
    exact ih env
  · intro cs ih env
    simp only [rebinds, collect_bound]
    exact rebinds_list_iff_of ih env
  · intro cs ih env
    simp only [rebinds, collect_bound]
    exact rebinds_list_iff_of ih env
  · intro b c ih env
    constructor
    · intro h
      simp only [rebinds, Bool.or_eq_true, List.any_eq_true, decide_eq_true_eq] at h
      rcases h with ⟨x, hxb, hxe⟩ | h
      · exact Or.inl ⟨x, by simp [collect_bound, hxb], hxe⟩
      · rw [ih (b ++ env)] at h
        rcases h with ⟨x, hxc, hxbe⟩ | h
        · rcases List.mem_append.mp hxbe with hxb | hxe
          · refine Or.inr ?_
            simp only [rebinds, Bool.or_eq_true]
            right
            rw [List.append_nil, ih b]
            exact Or.inl ⟨x, hxc, hxb⟩
          · exact Or.inl ⟨x, by simp [collect_bound, hxc], hxe⟩
        · refine Or.inr ?_
          simp only [rebinds, Bool.or_eq_true]
          right
          rw [List.append_nil, ih b]
          exact Or.inr h
    · intro h
      simp only [rebinds, Bool.or_eq_true, List.any_eq_true, decide_eq_true_eq]
      rcases h with ⟨x, hxc, hxe⟩ | h
      · simp only [collect_bound, List.mem_append] at hxc
        rcases hxc with hxb | hxc
        · exact Or.inl ⟨x, hxb, hxe⟩
        · right
          rw [ih (b ++ env)]
          exact Or.inl ⟨x, hxc, by simp [hxe]⟩
      · simp only [rebinds, Bool.or_eq_true, List.any_eq_true, decide_eq_true_eq] at h
        rcases h with ⟨x, hxb, hxe⟩ | h
        · simp at hxe
        · rw [List.append_nil, ih b] at h
          right
          rw [ih (b ++ env)]
          rcases h with ⟨x, hxc, hxb⟩ | h
          · exact Or.inl ⟨x, hxc, by simp [hxb]⟩
          · exact Or.inr h
  · intro b c ih env
    constructor
    · intro h
      simp only [rebinds, Bool.or_eq_true, List.any_eq_true, decide_eq_true_eq] at h
      rcases h with ⟨x, hxb, hxe⟩ | h
      · exact Or.inl ⟨x, by simp [collect_bound, hxb], hxe⟩
      · rw [ih (b ++ env)] at h
        rcases h with ⟨x, hxc, hxbe⟩ | h
        · rcases List.mem_append.mp hxbe with hxb | hxe
          · refine Or.inr ?_
            simp only [rebinds, Bool.or_eq_true]
            right
            rw [List.append_nil, ih b]
            exact Or.inl ⟨x, hxc, hxb⟩
          · exact Or.inl ⟨x, by simp [collect_bound, hxc], hxe⟩
        · refine Or.inr ?_
          simp only [rebinds, Bool.or_eq_true]
          right
          rw [List.append_nil, ih b]
          exact Or.inr h
    · intro h
      simp only [rebinds, Bool.or_eq_true, List.any_eq_true, decide_eq_true_eq]
      rcases h with ⟨x, hxc, hxe⟩ | h
      · simp only [collect_bound, List.mem_append] at hxc
        rcases hxc with hxb | hxc
        · exact Or.inl ⟨x, hxb, hxe⟩
        · right
          rw [ih (b ++ env)]
          exact Or.inl ⟨x, hxc, by simp [hxe]⟩
      · simp only [rebinds, Bool.or_eq_true, List.any_eq_true, decide_eq_true_eq] at h
        rcases h with ⟨x, hxb, hxe⟩ | h
        · simp at hxe
        · rw [List.append_nil, ih b] at h
          right
          rw [ih (b ++ env)]
          rcases h with ⟨x, hxc, hxb⟩ | h
          · exact Or.inl ⟨x, hxc, by simp [hxb]⟩
          · exact Or.inr h
  · intro env
    simp [rebinds, collect_bound]

theorem svf_rebinds_main : ∀ N : Nat,
    (∀ (f : WFF) (used : List String), 2 * wsize f ≤ N → rebinds [] f = true →
      svf_go f used = .error .recursiveBinding) ∧
    (∀ (cs : List WFF) (used : List String), 2 * wsizeList cs + 1 ≤ N →
      rebinds_list [] cs = true → svf_go_list cs used = .error .recursiveBinding) := by
  intro N
  induction N using Nat.strong_induction_on with
  | _ N ih =>
    constructor
    · intro f used hN hr
      cases f with
      | atomic p ts => simp [rebinds] at hr
      | unknown => simp [rebinds] at hr
      | not c =>
        simp only [rebinds] at hr
        have hb : 2 * wsize c ≤ N - 1 := by simp [wsize] at hN; omega
        have hN1 : N - 1 < N := by
          have := wsize_pos c
          omega
        rw [svf_go_not, (ih (N - 1) hN1).1 c used hb hr]
      | and cs =>
        simp only [rebinds] at hr
        have hb : 2 * wsizeList cs + 1 ≤ N - 1 := by simp [wsize] at hN; omega
        have hN1 : N - 1 < N := by simp [wsize] at hN; omega
        rw [svf_go_and, (ih (N - 1) hN1).2 cs used hb hr]
      | or cs =>
        simp only [rebinds] at hr
        have hb : 2 * wsizeList cs + 1 ≤ N - 1 := by simp [wsize] at hN; omega
        have hN1 : N - 1 < N := by simp [wsize] at hN; omega
        rw [svf_go_or, (ih (N - 1) hN1).2 cs used hb hr]
      | forAll b c =>
        simp only [rebinds, Bool.or_eq_true, List.any_eq_true, decide_eq_true_eq,
          List.not_mem_nil, List.append_nil] at hr
        have hr2 : rebinds b c = true := by
          rcases hr with ⟨x, _, hx⟩ | h
          · cases hx
          · exact h
        rw [rebinds_iff c b] at hr2
        rcases hr2 with ⟨x, hx1, hx2⟩ | hrc
        · exact svf_go_forAll_err (svf_quant_err_of_hit b c used ⟨x, hx2, hx1⟩)
        · cases hq : svf_quant b c used with
          | error e =>
            have := svf_quant_err_val b c used e hq
            subst this
            exact svf_go_forAll_err hq
          | ok r =>
            obtain ⟨ms, c', u1⟩ := r
            have hqs := svf_quant_spec b c used ms c' u1 hq
            have hw := svf_quant_wsize _ _ _ _ _ _ hq
            have hb : 2 * wsize c' ≤ N - 1 := by simp [wsize] at hN; omega
            have hN1 : N - 1 < N := by
              have := wsize_pos c
              simp [wsize] at hN
              omega
            have hrc' : rebinds [] c' = true := by
              rw [← rebinds_erase c', hqs.2.2, rebinds_erase]
              exact hrc
            rw [svf_go_forAll_ok hq, (ih (N - 1) hN1).1 c' u1 hb hrc']
      | thereExists b c =>
        simp only [rebinds, Bool.or_eq_true, List.any_eq_true, decide_eq_true_eq,
          List.not_mem_nil, List.append_nil] at hr
        have hr2 : rebinds b c = true := by
          rcases hr with ⟨x, _, hx⟩ | h
          · cases hx
          · exact h
        rw [rebinds_iff c b] at hr2
        rcases hr2 with ⟨x, hx1, hx2⟩ | hrc
        · exact svf_go_thereExists_err (svf_quant_err_of_hit b c used ⟨x, hx2, hx1⟩)
        · cases hq : svf_quant b c used with
          | error e =>
            have := svf_quant_err_val b c used e hq
            subst this
            exact svf_go_thereExists_err hq
          | ok r =>
            obtain ⟨ms, c', u1⟩ := r
            have hqs := svf_quant_spec b c used ms c' u1 hq
            have hw := svf_quant_wsize _ _ _ _ _ _ hq
            have hb : 2 * wsize c' ≤ N - 1 := by simp [wsize] at hN; omega
            have hN1 : N - 1 < N := by
              have := wsize_pos c
              simp [wsize] at hN
              omega
            have hrc' : rebinds [] c' = true := by
              rw [← rebinds_erase c', hqs.2.2, rebinds_erase]
              exact hrc
            rw [svf_go_thereExists_ok hq, (ih (N - 1) hN1).1 c' u1 hb hrc']
    · intro cs used hN hr
      cases cs with
      | nil => simp [rebinds_list] at hr
      | cons c t =>
        simp only [rebinds_list, Bool.or_eq_true] at hr
        have hc : 2 * wsize c ≤ N - 1 := by simp [wsizeList] at hN; omega
        have ht : 2 * wsizeList t + 1 ≤ N - 1 := by
          have := wsize_pos c
          simp [wsizeList] at hN
          omega
        have hN1 : N - 1 < N := by
          have := wsize_pos c
          simp [wsizeList] at hN
          omega
        rcases hr with hr | hr
        · rw [svf_go_list_cons, (ih (N - 1) hN1).1 c used hc hr]
        · rw [svf_go_list_cons]
          cases hg : svf_go c used with
          | error e =>
            have := svf_go_err_val hg
            subst this
            rfl
          | ok r =>
            obtain ⟨c1, u1⟩ := r
            dsimp only
            rw [(ih (N - 1) hN1).2 t u1 ht hr]

theorem svf_self_main : ∀ N : Nat,
    (∀ (f : WFF) (used : List String), 2 * wsize f ≤ N → (collect_bound f).Nodup →
      (∀ x ∈ collect_bound f, x ∉ used) →
      svf_go f used = .ok (f, (collect_bound f).reverse ++ used)) ∧
    (∀ (cs : List WFF) (used : List String), 2 * wsizeList cs + 1 ≤ N →
      (collect_bound_list cs).Nodup → (∀ x ∈ collect_bound_list cs, x ∉ used) →
      svf_go_list cs used = .ok (cs, (collect_bound_list cs).reverse ++ used)) := by
  intro N
  induction N using Nat.strong_induction_on with
  | _ N ih =>
    constructor
    · intro f used hN hn hu
      cases f with
      | atomic p ts => simp [svf_go_atomic, collect_bound]
      | unknown => simp [svf_go_unknown, collect_bound]
      | not c =>
        have hb : 2 * wsize c ≤ N - 1 := by simp [wsize] at hN; omega
        have hN1 : N - 1 < N := by
          have := wsize_pos c
          omega
        rw [svf_go_not, (ih (N - 1) hN1).1 c used hb hn hu]
        simp [collect_bound]
      | and cs =>
        have hb : 2 * wsizeList cs + 1 ≤ N - 1 := by simp [wsize] at hN; omega
        have hN1 : N - 1 < N := by simp [wsize] at hN; omega
        rw [svf_go_and, (ih (N - 1) hN1).2 cs used hb hn hu]
        simp [collect_bound]
      | or cs =>
        have hb : 2 * wsizeList cs + 1 ≤ N - 1 := by simp [wsize] at hN; omega
        have hN1 : N - 1 < N := by simp [wsize] at hN; omega
        rw [svf_go_or, (ih (N - 1) hN1).2 cs used hb hn hu]
        simp [collect_bound]
      | forAll b c =>
        simp only [collect_bound] at hn hu
        rw [List.nodup_append] at hn
        have hq := svf_quant_self b c used hn.1
          (fun n hnb => hu n (by simp [hnb]))
          (fun n hnb => hn.2.2 hnb)
        have hb : 2 * wsize c ≤ N - 1 := by simp [wsize] at hN; omega
        have hN1 : N - 1 < N := by
          have := wsize_pos c
          simp [wsize] at hN
          omega
        have hrec := (ih (N - 1) hN1).1 c (b.reverse ++ used) hb hn.2.1
          (fun x hx => by
            simp only [List.mem_append, List.mem_reverse, not_or]
            exact ⟨fun hxb => hn.2.2 hxb hx, hu x (by simp [hx])⟩)
        rw [svf_go_forAll_ok hq, hrec]
        simp [collect_bound]
      | thereExists b c =>
        simp only [collect_bound] at hn hu
        rw [List.nodup_append] at hn
        have hq := svf_quant_self b c used hn.1
          (fun n hnb => hu n (by simp [hnb]))
          (fun n hnb => hn.2.2 hnb)
        have hb : 2 * wsize c ≤ N - 1 := by simp [wsize] at hN; omega
        have hN1 : N - 1 < N := by
          have := wsize_pos c
          simp [wsize] at hN
          omega
        have hrec := (ih (N - 1) hN1).1 c (b.reverse ++ used) hb hn.2.1
          (fun x hx => by
            simp only [List.mem_append, List.mem_reverse, not_or]
            exact ⟨fun hxb => hn.2.2 hxb hx, hu x (by simp [hx])⟩)
        rw [svf_go_thereExists_ok hq, hrec]
        simp [collect_bound]
    · intro cs used hN hn hu
      cases cs with
      | nil => simp [svf_go_list_nil, collect_bound_list]
      | cons c t =>
        simp only [collect_bound_list] at hn hu
        rw [List.nodup_append] at hn
        have hc : 2 * wsize c ≤ N - 1 := by simp [wsizeList] at hN; omega
        have ht : 2 * wsizeList t + 1 ≤ N - 1 := by
          have := wsize_pos c
          simp [wsizeList] at hN
          omega
        have hN1 : N - 1 < N := by
          have := wsize_pos c
          simp [wsizeList] at hN
          omega
        have h1 := (ih (N - 1) hN1).1 c used hc hn.1 (fun x hx => hu x (by simp [hx]))
        have h2 := (ih (N - 1) hN1).2 t ((collect_bound c).reverse ++ used) ht hn.2.1
          (fun x hx => by
            simp only [List.mem_append, List.mem_reverse, not_or]
            exact ⟨fun hxc => hn.2.2 hxc hx, hu x (by simp [hx])⟩)
        rw [svf_go_list_cons, h1]
        dsimp only
        rw [h2]
        simp [collect_bound_list]

/-! Lemmas about `to_nnf`. -/

theorem to_nnf_list_eq_mapM : ∀ cs : List WFF, to_nnf_list cs = cs.mapM to_nnf := by
  intro cs
  induction cs with
  | nil => rfl
  | cons c t ih =>
    rw [List.mapM_cons, ← ih]
    rfl

theorem to_nnf_neg_list_eq_mapM : ∀ cs : List WFF,
    to_nnf_neg_list cs = cs.mapM (fun c => to_nnf (.not c)) := by
  intro cs
  induction cs with
  | nil => rfl
  | cons c t ih =>
    rw [List.mapM_cons, ← ih]
    rfl

theorem to_nnf_list_cons_ok {c : WFF} {cs : List WFF} {r : List WFF} :
    to_nnf_list (c :: cs) = .ok r ↔
      ∃ c' cs', to_nnf c = .ok c' ∧ to_nnf_list cs = .ok cs' ∧ r = c' :: cs' := by
  constructor
  · intro h
    simp only [to_nnf_list, bind, Except.bind] at h
    cases hc : to_nnf c with
    | error e => rw [hc] at h; cases h
    | ok c' =>
      rw [hc] at h
      dsimp only at h
      cases ht : to_nnf_list cs with
      | error e => rw [ht] at h; cases h
      | ok cs' =>
        rw [ht] at h
        simp at h
        exact ⟨c', cs', rfl, rfl, h.symm⟩
  · rintro ⟨c', cs', hc, ht, rfl⟩
    simp [to_nnf_list, bind, Except.bind, hc, ht]

theorem to_nnf_list_cons_err {c : WFF} {cs : List WFF} {e : Err} :
    to_nnf_list (c :: cs) = .error e ↔
      to_nnf c = .error e ∨ (∃ c', to_nnf c = .ok c' ∧ to_nnf_list cs = .error e) := by
  constructor
  · intro h
    simp only [to_nnf_list, bind, Except.bind] at h
    cases hc : to_nnf c with
    | error e' =>
      rw [hc] at h
      cases h
      exact Or.inl rfl
    | ok c' =>
      rw [hc] at h
      dsimp only at h
      cases ht : to_nnf_list cs with
      | error e' =>
        rw [ht] at h
        cases h
        exact Or.inr ⟨c', rfl, rfl⟩
      | ok cs' =>
        rw [ht] at h
        cases h
  · rintro (h | ⟨c', hc, ht⟩)
    · simp [to_nnf_list, bind, Except.bind, h]
    · simp [to_nnf_list, bind, Except.bind, hc, ht]

theorem to_nnf_neg_list_cons_ok {c : WFF} {cs : List WFF} {r : List WFF} :
    to_nnf_neg_list (c :: cs) = .ok r ↔
      ∃ c' cs', to_nnf_neg c = .ok c' ∧ to_nnf_neg_list cs = .ok cs' ∧ r = c' :: cs' := by
  constructor
  · intro h
    simp only [to_nnf_neg_list, bind, Except.bind] at h
    cases hc : to_nnf_neg c with
    | error e => rw [hc] at h; cases h
    | ok c' =>
      rw [hc] at h
      dsimp only at h
      cases ht : to_nnf_neg_list cs with
      | error e => rw [ht] at h; cases h
      | ok cs' =>
        rw [ht] at h
        simp at h
        exact ⟨c', cs', rfl, rfl, h.symm⟩
  · rintro ⟨c', cs', hc, ht, rfl⟩
    simp [to_nnf_neg_list, bind, Except.bind, hc, ht]

theorem to_nnf_neg_list_cons_err {c : WFF} {cs : List WFF} {e : Err} :
    to_nnf_neg_list (c :: cs) = .error e ↔
      to_nnf_neg c = .error e ∨
        (∃ c', to_nnf_neg c = .ok c' ∧ to_nnf_neg_list cs = .error e) := by
  constructor
  · intro h
    simp only [to_nnf_neg_list, bind, Except.bind] at h
    cases hc : to_nnf_neg c with
    | error e' =>
      rw [hc] at h
      cases h
      exact Or.inl rfl
    | ok c' =>
      rw [hc] at h
      dsimp only at h
      cases ht : to_nnf_neg_list cs with
      | error e' =>
        rw [ht] at h
        cases h
        exact Or.inr ⟨c', rfl, rfl⟩
      | ok cs' =>
        rw [ht] at h
        cases h
  · rintro (h | ⟨c', hc, ht⟩)
    · simp [to_nnf_neg_list, bind, Except.bind, h]
    · simp [to_nnf_neg_list, bind, Except.bind, hc, ht]

theorem nnf_list_props_of {cs gs : List WFF}
    (hpt : ∀ c ∈ cs, ∀ g, to_nnf c = .ok g →
      nots_atomic g = true ∧ closed g = true ∧ closed c = true)
    (h : to_nnf_list cs = .ok gs) :
    nots_atomic_list gs = true ∧ closed_list gs = true ∧ closed_list cs = true := by
  induction cs generalizing gs with
  | nil =>
    simp [to_nnf_list] at h
    subst h
    exact ⟨rfl, rfl, rfl⟩
  | cons a t ih =>
    rw [to_nnf_list_cons_ok] at h
    obtain ⟨c', t', hc, ht, rfl⟩ := h
    obtain ⟨h1, h2, h3⟩ := hpt a (by simp) c' hc
    obtain ⟨h4, h5, h6⟩ := ih (fun c hc' => hpt c (by simp [hc'])) ht
    simp [nots_atomic_list, closed_list, h1, h2, h3, h4, h5, h6]

theorem nnf_neg_list_props_of {cs gs : List WFF}
    (hpt : ∀ c ∈ cs, ∀ g, to_nnf_neg c = .ok g →
      nots_atomic g = true ∧ closed g = true ∧ closed c = true)
    (h : to_nnf_neg_list cs = .ok gs) :
    nots_atomic_list gs = true ∧ closed_list gs = true ∧ closed_list cs = true := by
  induction cs generalizing gs with
  | nil =>
    simp [to_nnf_neg_list] at h
    subst h
    exact ⟨rfl, rfl, rfl⟩
  | cons a t ih =>
    rw [to_nnf_neg_list_cons_ok] at h
    obtain ⟨c', t', hc, ht, rfl⟩ := h
    obtain ⟨h1, h2, h3⟩ := hpt a (by simp) c' hc
    obtain ⟨h4, h5, h6⟩ := ih (fun c hc' => hpt c (by simp [hc'])) ht
    simp [nots_atomic_list, closed_list, h1, h2, h3, h4, h5, h6]

theorem nnf_main : ∀ N : Nat,
    (∀ f : WFF, 2 * wsize f ≤ N → ∀ g, to_nnf f = .ok g →
      nots_atomic g = true ∧ closed g = true ∧ closed f = true) ∧
    (∀ f : WFF, 2 * wsize f + 1 ≤ N → ∀ g, to_nnf_neg f = .ok g →
      nots_atomic g = true ∧ closed g = true ∧ closed f = true) := by
  intro N
  induction N using Nat.strong_induction_on with
  | _ N ih =>
    constructor
    · intro f hN g h
      cases f with
      | atomic p ts =>
        cases h
        exact ⟨rfl, rfl, rfl⟩
      | unknown => cases h
      | not c =>
        have hb : 2 * wsize c + 1 ≤ N - 1 := by simp [wsize] at hN; omega
        have hN1 : N - 1 < N := by
          have := wsize_pos c
          omega
        have := (ih (N - 1) hN1).2 c hb g h
        refine ⟨this.1, this.2.1, ?_⟩
        simpa [closed] using this.2.2
      | and cs =>
        simp only [to_nnf, map_eq_ok] at h
        obtain ⟨gs, hgs, rfl⟩ := h
        have hpt : ∀ c ∈ cs, ∀ g, to_nnf c = .ok g →
            nots_atomic g = true ∧ closed g = true ∧ closed c = true := by
          intro c hcm g' hg'
          have hb : 2 * wsize c ≤ N - 1 := by
            have := wsize_le_of_mem hcm
            simp [wsize] at hN
            omega
          have hN1 : N - 1 < N := by simp [wsize] at hN; omega
          exact (ih (N - 1) hN1).1 c hb g' hg'
        have := nnf_list_props_of hpt hgs
        simp [nots_atomic, closed, this.1, this.2.1, this.2.2]
      | or cs =>
        simp only [to_nnf, map_eq_ok] at h
        obtain ⟨gs, hgs, rfl⟩ := h
        have hpt : ∀ c ∈ cs, ∀ g, to_nnf c = .ok g →
            nots_atomic g = true ∧ closed g = true ∧ closed c = true := by
          intro c hcm g' hg'
          have hb : 2 * wsize c ≤ N - 1 := by
            have := wsize_le_of_mem hcm
            simp [wsize] at hN
            omega
          have hN1 : N - 1 < N := by simp [wsize] at hN; omega
          exact (ih (N - 1) hN1).1 c hb g' hg'
        have := nnf_list_props_of hpt hgs
        simp [nots_atomic, closed, this.1, this.2.1, this.2.2]
      | forAll b c =>
        simp only [to_nnf, map_eq_ok] at h
        obtain ⟨g', hg', rfl⟩ := h
        have hb : 2 * wsize c ≤ N - 1 := by simp [wsize] at hN; omega
        have hN1 : N - 1 < N := by
          have := wsize_pos c
          simp [wsize] at hN
          omega
        have := (ih (N - 1) hN1).1 c hb g' hg'
        simp [nots_atomic, closed, this.1, this.2.1, this.2.2]
      | thereExists b c =>
        simp only [to_nnf, map_eq_ok] at h
        obtain ⟨g', hg', rfl⟩ := h
        have hb : 2 * wsize c ≤ N - 1 := by simp [wsize] at hN; omega
        have hN1 : N - 1 < N := by
          have := wsize_pos c
          simp [wsize] at hN
          omega
        have := (ih (N - 1) hN1).1 c hb g' hg'
        simp [nots_atomic, closed, this.1, this.2.1, this.2.2]
    · intro f hN g h
      cases f with
      | atomic p ts =>
        cases h
        exact ⟨rfl, rfl, rfl⟩
      | unknown => cases h
      | not inner =>
        have hb : 2 * wsize inner ≤ N - 1 := by simp [wsize] at hN; omega
        have hN1 : N - 1 < N := by
          have := wsize_pos inner
          omega
        have := (ih (N - 1) hN1).1 inner hb g h
        refine ⟨this.1, this.2.1, ?_⟩
        simpa [closed] using this.2.2
      | and cs =>
        simp only [to_nnf_neg, map_eq_ok] at h
        obtain ⟨gs, hgs, rfl⟩ := h
        have hpt : ∀ c ∈ cs, ∀ g, to_nnf_neg c = .ok g →
            nots_atomic g = true ∧ closed g = true ∧ closed c = true := by
          intro c hcm g' hg'
          have hb : 2 * wsize c + 1 ≤ N - 1 := by
            have := wsize_le_of_mem hcm
            simp [wsize] at hN
            omega
          have hN1 : N - 1 < N := by simp [wsize] at hN; omega
          exact (ih (N - 1) hN1).2 c hb g' hg'
        have := nnf_neg_list_props_of hpt hgs
        simp [nots_atomic, closed, this.1, this.2.1, this.2.2]
      | or cs =>
        simp only [to_nnf_neg, map_eq_ok] at h
        obtain ⟨gs, hgs, rfl⟩ := h
        have hpt : ∀ c ∈ cs, ∀ g, to_nnf_neg c = .ok g →
            nots_atomic g = true ∧ closed g = true ∧ closed c = true := by
          intro c hcm g' hg'
          have hb : 2 * wsize c + 1 ≤ N - 1 := by
            have := wsize_le_of_mem hcm
            simp [wsize] at hN
            omega
          have hN1 : N - 1 < N := by simp [wsize] at hN; omega
          exact (ih (N - 1) hN1).2 c hb g' hg'
        have := nnf_neg_list_props_of hpt hgs
        simp [nots_atomic, closed, this.1, this.2.1, this.2.2]
      | forAll b inner =>
        simp only [to_nnf_neg, map_eq_ok] at h
        obtain ⟨g', hg', rfl⟩ := h
        have hb : 2 * wsize inner + 1 ≤ N - 1 := by simp [wsize] at hN; omega
        have hN1 : N - 1 < N := by
          have := wsize_pos inner
          simp [wsize] at hN
          omega
        have := (ih (N - 1) hN1).2 inner hb g' hg'
        simp [nots_atomic, closed, this.1, this.2.1, this.2.2]
      | thereExists b inner =>
        simp only [to_nnf_neg, map_eq_ok] at h
        obtain ⟨g', hg', rfl⟩ := h
        have hb : 2 * wsize inner + 1 ≤ N - 1 := by simp [wsize] at hN; omega
        have hN1 : N - 1 < N := by
          have := wsize_pos inner
          simp [wsize] at hN
          omega
        have := (ih (N - 1) hN1).2 inner hb g' hg'
        simp [nots_atomic, closed, this.1, this.2.1, this.2.2]

theorem to_nnf_props {f g : WFF} (h : to_nnf f = .ok g) :
    nots_atomic g = true ∧ closed g = true ∧ closed f = true :=
  (nnf_main (2 * wsize f)).1 f le_rfl g h

theorem nnf_err_main : ∀ N : Nat,
    (∀ f : WFF, 2 * wsize f ≤ N → ∀ e, to_nnf f = .error e → e = .unsupportedFormula) ∧
    (∀ f : WFF, 2 * wsize f + 1 ≤ N → ∀ e, to_nnf_neg f = .error e →
      e = .unsupportedFormula) := by
  intro N
  induction N using Nat.strong_induction_on with
  | _ N ih =>
    have hListPos : ∀ {c : WFF} {cs : List WFF}, c ∈ cs → 1 ≤ wsizeList cs := by
      intro c cs hc
      have h1 := wsize_le_of_mem hc
      have h2 := wsize_pos c
      omega
    constructor
    · intro f hN e h
      cases f with
      | atomic p ts => cases h
      | unknown =>
        cases h
        rfl
      | not c =>
        have hb : 2 * wsize c + 1 ≤ N - 1 := by simp [wsize] at hN; omega
        have hN1 : N - 1 < N := by
          have := wsize_pos c
          omega
        exact (ih (N - 1) hN1).2 c hb e h
      | and cs =>
        simp only [to_nnf, map_eq_err] at h
        have hN1 : N - 1 < N := by simp [wsize] at hN; omega
        induction cs with
        | nil => simp [to_nnf_list] at h
        | cons a t iht =>
          rw [to_nnf_list_cons_err] at h
          rcases h with h | ⟨c', _, h⟩
          · have hb : 2 * wsize a ≤ N - 1 := by simp [wsize, wsizeList] at hN; omega
            exact (ih (N - 1) hN1).1 a hb e h
          · apply iht ?_ h
            simp [wsize, wsizeList] at hN ⊢
            have := wsize_pos a
            omega
      | or cs =>
        simp only [to_nnf, map_eq_err] at h
        have hN1 : N - 1 < N := by simp [wsize] at hN; omega
        induction cs with
        | nil => simp [to_nnf_list] at h
        | cons a t iht =>
          rw [to_nnf_list_cons_err] at h
          rcases h with h | ⟨c', _, h⟩
          · have hb : 2 * wsize a ≤ N - 1 := by simp [wsize, wsizeList] at hN; omega
            exact (ih (N - 1) hN1).1 a hb e h
          · apply iht ?_ h
            simp [wsize, wsizeList] at hN ⊢
            have := wsize_pos a
            omega
      | forAll b c =>
        simp only [to_nnf, map_eq_err] at h
        have hb : 2 * wsize c ≤ N - 1 := by simp [wsize] at hN; omega
        have hN1 : N - 1 < N := by
          have := wsize_pos c
          simp [wsize] at hN
          omega
        exact (ih (N - 1) hN1).1 c hb e h
      | thereExists b c =>
        simp only [to_nnf, map_eq_err] at h
        have hb : 2 * wsize c ≤ N - 1 := by simp [wsize] at hN; omega
        have hN1 : N - 1 < N := by
          have := wsize_pos c
          simp [wsize] at hN
          omega
        exact (ih (N - 1) hN1).1 c hb e h
    · intro f hN e h
      cases f with
      | atomic p ts => cases h
      | unknown =>
        cases h
        rfl
      | not inner =>
        have hb : 2 * wsize inner ≤ N - 1 := by simp [wsize] at hN; omega
        have hN1 : N - 1 < N := by
          have := wsize_pos inner
          omega
        exact (ih (N - 1) hN1).1 inner hb e h
      | and cs =>
        simp only [to_nnf_neg, map_eq_err] at h
        have hN1 : N - 1 < N := by simp [wsize] at hN; omega
        induction cs with
        | nil => simp [to_nnf_neg_list] at h
        | cons a t iht =>
          rw [to_nnf_neg_list_cons_err] at h
          rcases h with h | ⟨c', _, h⟩
          · have hb : 2 * wsize a + 1 ≤ N - 1 := by simp [wsize, wsizeList] at hN; omega
            exact (ih (N - 1) hN1).2 a hb e h
          · apply iht ?_ h
            simp [wsize, wsizeList] at hN ⊢
            have := wsize_pos a
            omega
      | or cs =>
        simp only [to_nnf_neg, map_eq_err] at h
        have hN1 : N - 1 < N := by simp [wsize] at hN; omega
        induction cs with
        | nil => simp [to_nnf_neg_list] at h
        | cons a t iht =>
          rw [to_nnf_neg_list_cons_err] at h
          rcases h with h | ⟨c', _, h⟩
          · have hb : 2 * wsize a + 1 ≤ N - 1 := by simp [wsize, wsizeList] at hN; omega
            exact (ih (N - 1) hN1).2 a hb e h
          · apply iht ?_ h
            simp [wsize, wsizeList] at hN ⊢
            have := wsize_pos a
            omega
      | forAll b inner =>
        simp only [to_nnf_neg, map_eq_err] at h
        have hb : 2 * wsize inner + 1 ≤ N - 1 := by simp [wsize] at hN; omega
        have hN1 : N - 1 < N := by
          have := wsize_pos inner
          simp [wsize] at hN
          omega
        exact (ih (N - 1) hN1).2 inner hb e h
      | thereExists b inner =>
        simp only [to_nnf_neg, map_eq_err] at h
        have hb : 2 * wsize inner + 1 ≤ N - 1 := by simp [wsize] at hN; omega
        have hN1 : N - 1 < N := by
          have := wsize_pos inner
          simp [wsize] at hN
          omega
        exact (ih (N - 1) hN1).2 inner hb e h

theorem to_nnf_err_val {f : WFF} {e : Err} (h : to_nnf f = .error e) :
    e = .unsupportedFormula :=
  (nnf_err_main (2 * wsize f)).1 f le_rfl e h

/-- A formula that is already in NNF shape and built from the closed
variant set is a fixed point of `to_nnf`. -/
theorem to_nnf_fixed : ∀ g : WFF, nots_atomic g = true → closed g = true →
    to_nnf g = .ok g := by
  apply wff_induct
  · intro p ts _ _
    rfl
  · intro c ih hn hc
    cases c with
    | atomic p ts => rfl
    | not c' => simp [nots_atomic] at hn
    | and cs => simp [nots_atomic] at hn
    | or cs => simp [nots_atomic] at hn
    | forAll b c' => simp [nots_atomic] at hn
    | thereExists b c' => simp [nots_atomic] at hn
    | unknown => simp [nots_atomic] at hn
  · intro cs ih hn hc
    simp only [nots_atomic] at hn
    simp only [closed] at hc
    simp only [to_nnf]
    suffices hs : to_nnf_list cs = .ok cs by
      rw [hs]
      rfl
    induction cs with
    | nil => rfl
    | cons a t iht =>
      simp only [nots_atomic_list, Bool.and_eq_true] at hn
      simp only [closed_list, Bool.and_eq_true] at hc
      rw [to_nnf_list_cons_ok]
      exact ⟨a, t, ih a (by simp) hn.1 hc.1,
        iht (fun c hcm => ih c (by simp [hcm])) hn.2 hc.2, rfl⟩
  · intro cs ih hn hc
    simp only [nots_atomic] at hn
    simp only [closed] at hc
    simp only [to_nnf]
    suffices hs : to_nnf_list cs = .ok cs by
      rw [hs]
      rfl
    induction cs with
    | nil => rfl
    | cons a t iht =>
      simp only [nots_atomic_list, Bool.and_eq_true] at hn
      simp only [closed_list, Bool.and_eq_true] at hc
      rw [to_nnf_list_cons_ok]
      exact ⟨a, t, ih a (by simp) hn.1 hc.1,
        iht (fun c hcm => ih c (by simp [hcm])) hn.2 hc.2, rfl⟩
  · intro b c ih hn hc
    simp only [nots_atomic] at hn
    simp only [closed] at hc
    simp only [to_nnf]
    rw [ih hn hc]
    rfl
  · intro b c ih hn hc
    simp only [nots_atomic] at hn
    simp only [closed] at hc
    simp only [to_nnf]
    rw [ih hn hc]
    rfl
  · intro _ hc
    simp [closed] at hc

/-! Concrete formulas used by the end-to-end claim and the witnesses.
`wffExample` is the module-level demo formula of the source
(lines 229-234): `Or([Not(ForAll([x], p(x))), ThereExists([x,y],
Or([Not(p(y)), q(x)]))])` with `p`, `q` unary predicates. -/

def exP : Predicate := ⟨"p", 1⟩

def exQ : Predicate := ⟨"q", 1⟩

def wffExample : WFF :=
  .or [.not (.forAll ["x"] (.atomic exP [.var "x"])),
       .thereExists ["x", "y"]
         (.or [.not (.atomic exP [.var "y"]), .atomic exQ [.var "x"]])]

/-- The NNF of `wffExample`. -/
def nnfExample : WFF :=
  .or [.thereExists ["x"] (.not (.atomic exP [.var "x"])),
       .thereExists ["x", "y"]
         (.or [.not (.atomic exP [.var "y"]), .atomic exQ [.var "x"]])]

/-- The standardized form of `nnfExample`: the second binding of `x`
is renamed to `x0`, `y` is untouched. -/
def svfExample : WFF :=
  .or [.thereExists ["x"] (.not (.atomic exP [.var "x"])),
       .thereExists ["x0", "y"]
         (.or [.not (.atomic exP [.var "y"]), .atomic exQ [.var "x0"]])]

/-- A formula whose inner quantifier rebinds `x` under an enclosing
binder of `x`: `ForAll([x], ThereExists([x], p(x)))`. -/
def rebindExample : WFF :=
  .forAll ["x"] (.thereExists ["x"] (.atomic exP [.var "x"]))

/-- `Not(And([p(x), q(y)]))`, a closed formula that `to_nnf` rewrites
by De Morgan. -/
def negAndExample : WFF :=
  .not (.and [.atomic exP [.var "x"], .atomic exQ [.var "y"]])

/-! The claims. -/

/-- C1: for every NNF input formula, when `to_svf` returns a formula,
every bound-variable name of the result is unique among all bound
names collected across the whole tree (`(collect_bound g).Nodup`), and
`agree_free [] f g` states that free (unbound) variable occurrences
keep their names and that the connective/quantifier nesting, argument
order, predicates and bound-list lengths are unchanged — only variable
names differ. -/
theorem to_svf_ok_props {f g : WFF} (h : to_svf f = .ok g) :
    (collect_bound g).Nodup ∧ agree_free [] f g = true := by
  rw [to_svf] at h
  cases hs : svf_go f [] with
  | error e => rw [hs] at h; cases h
  | ok r =>
    obtain ⟨g', u'⟩ := r
    rw [hs] at h
    cases h
    have hu := svf_go_used hs
    constructor
    · have hnd : u'.Nodup := hu.2 List.nodup_nil
      rw [hu.1] at hnd
      simpa using hnd
    · exact svf_go_agree hs []

theorem claim_C1 (f g : WFF) (hnnf : nots_atomic f = true) (h : to_svf f = .ok g) :
    (collect_bound g).Nodup ∧ agree_free [] f g = true :=
  to_svf_ok_props h

theorem claim_C1_witness :
    nots_atomic nnfExample = true ∧ to_svf nnfExample = .ok svfExample ∧
      ((collect_bound svfExample).Nodup ∧ agree_free [] nnfExample svfExample = true) := by
  have hsvf : to_svf nnfExample = .ok svfExample := by
    rw [← to_svf_eval_eq]
    rfl
  exact ⟨rfl, hsvf, claim_C1 nnfExample svfExample rfl hsvf⟩

/-- C2: for every formula built from the closed variant set, every
`Not` node in the output of `to_nnf` wraps an `Atomic` formula only. -/
theorem claim_C2 (f g : WFF) (hc : closed f = true) (h : to_nnf f = .ok g) :
    nots_atomic g = true :=
  (to_nnf_props h).1

theorem claim_C2_witness :
    closed negAndExample = true ∧
      to_nnf negAndExample =
        .ok (.or [.not (.atomic exP [.var "x"]), .not (.atomic exQ [.var "y"])]) ∧
      nots_atomic
        (.or [.not (.atomic exP [.var "x"]), .not (.atomic exQ [.var "y"])]) = true :=
  ⟨rfl, rfl, claim_C2 negAndExample _ rfl rfl⟩

/-- C3: on the source's demo input
`Or([Not(ForAll([x], p(x))), ThereExists([x,y], Or([Not(p(y)), q(x)]))])`,
`to_nnf` followed by `to_svf` renders the two independently-bound
occurrences of `x` with distinct names (the first stays `x`, the second
becomes `x0`), keeps `y`, and leaves the connective/quantifier nesting
of the NNF form unchanged (`agree_free`). -/
theorem claim_C3 :
    to_nnf wffExample = .ok nnfExample ∧
    to_svf nnfExample = .ok svfExample ∧
    agree_free [] nnfExample svfExample = true ∧
    wffStr nnfExample = "(E x:(~p(x)) | E x,y:((~p(y) | q(x))))" ∧
    wffStr svfExample = "(E x:(~p(x)) | E x0,y:((~p(y) | q(x0))))" := by
  refine ⟨rfl, ?_, rfl, rfl, rfl⟩
  rw [← to_svf_eval_eq]
  rfl

/-- C4 counterexample: a formula variant outside the closed set (a
cloneable foreign node) makes `to_svf` silently return a result instead
of failing with `UnsupportedFormula`: the claim is false for the
standardizer. -/
theorem claim_C4_counterexample :
    closed WFF.unknown = false ∧ to_svf WFF.unknown = .ok WFF.unknown := by
  refine ⟨rfl, ?_⟩
  rw [← to_svf_eval_eq]
  rfl

/-- C4 (amended): `to_nnf` fails with the distinct error
`UnsupportedFormula` whenever its input contains a formula variant
outside the closed set; `to_svf` does not — its traversal silently
skips such variants (treats them as binding-free leaves) and returns a
result. -/
theorem claim_C4 :
    (∀ f : WFF, closed f = false → to_nnf f = .error .unsupportedFormula) ∧
    to_svf WFF.unknown = .ok WFF.unknown := by
  constructor
  · intro f hcf
    cases hn : to_nnf f with
    | ok g =>
      have := (to_nnf_props hn).2.2
      rw [hcf] at this
      cases this
    | error e =>
      rw [to_nnf_err_val hn]
  · rw [← to_svf_eval_eq]
    rfl

theorem claim_C4_witness :
    to_nnf (.and [.atomic exP [.var "x"], .unknown]) = .error .unsupportedFormula :=
  claim_C4.1 (.and [.atomic exP [.var "x"], .unknown]) rfl

/-- C5: whenever some quantifier node of the input rebinds a variable
name that is already bound by an enclosing `ForAll`/`ThereExists` on
the same path (`rebinds [] f`, judged on the names before the renaming
pass), `to_svf` fails with the distinct error `RecursiveBinding`. -/
theorem claim_C5 (f : WFF) (h : rebinds [] f = true) :
    to_svf f = .error .recursiveBinding := by
  have hgo := (svf_rebinds_main (2 * wsize f)).1 f [] le_rfl h
  rw [to_svf, hgo]

theorem claim_C5_witness :
    rebinds [] rebindExample = true ∧
      to_svf rebindExample = .error .recursiveBinding :=
  ⟨rfl, claim_C5 rebindExample rfl⟩

/-- C6: the `Not` branch of `to_nnf` implements exactly the source
rewrite rules: double-negation elimination, the two De Morgan rules
(with `to_nnf(Not(c))` applied to each child), quantifier duality with
the bound list carried over unchanged, and `Not(Atomic)` returned
unchanged. -/
theorem claim_C6 : ∀ (a : WFF) (cs : List WFF) (b : List String) (p : Predicate)
    (ts : List Term),
    to_nnf (.not (.not a)) = to_nnf a ∧
    to_nnf (.not (.atomic p ts)) = .ok (.not (.atomic p ts)) ∧
    to_nnf (.not (.and cs)) = (cs.mapM (fun c => to_nnf (.not c))).map WFF.or ∧
    to_nnf (.not (.or cs)) = (cs.mapM (fun c => to_nnf (.not c))).map WFF.and ∧
    to_nnf (.not (.forAll b a)) = (to_nnf (.not a)).map (WFF.thereExists b) ∧
    to_nnf (.not (.thereExists b a)) = (to_nnf (.not a)).map (WFF.forAll b) := by
  intro a cs b p ts
  refine ⟨rfl, rfl, ?_, ?_, rfl, rfl⟩
  · show (to_nnf_neg_list cs).map WFF.or = _
    rw [to_nnf_neg_list_eq_mapM]
  · show (to_nnf_neg_list cs).map WFF.and = _
    rw [to_nnf_neg_list_eq_mapM]

/-- C7: `to_nnf` is idempotent — applying it to its own (successful)
output returns that output unchanged; stated with `Except.bind`, so on
closed inputs `to_nnf (to_nnf f)` structurally equals `to_nnf f`. -/
theorem claim_C7 (f : WFF) (hc : closed f = true) :
    (to_nnf f).bind to_nnf = to_nnf f := by
  cases h : to_nnf f with
  | error e => rfl
  | ok g =>
    have hp := to_nnf_props h
    show to_nnf g = .ok g
    exact to_nnf_fixed g hp.1 hp.2.1

theorem claim_C7_witness :
    closed negAndExample = true ∧
      (to_nnf negAndExample).bind to_nnf = to_nnf negAndExample :=
  ⟨rfl, claim_C7 negAndExample rfl⟩

/-- C8 counterexample: the claim's general increment rule is false of
the program.  `"x9\n"` does not end with a decimal-digit run (it ends
with a newline), so the rule prescribes appending `"0"`, but the
source's regex anchor `$` also matches just before the trailing
newline and yields `"x10"`.  Likewise `"a\nb9"` ends with the run
`"9"`, but the result is `"b10"`, not `"a\nb10"`: `(.*?)` cannot cross
a newline, so everything up to the last newline is dropped. -/
theorem claim_C8_counterexample :
    increment "x9\n" = "x10" ∧ increment "x9\n" ≠ "x9\n0" ∧
      increment "a\nb9" = "b10" ∧ increment "a\nb9" ≠ "a\nb10" := by
  refine ⟨by decide, by decide, by decide, by decide⟩

/-- C8 (amended): for names without a newline character the source's
increment rule is as claimed — a name ending in a (canonical) decimal
digit run has that numeric suffix incremented by one, a name with no
trailing digit gets `"0"` appended — and in particular
`increment "x" = "x0"`, `increment "x0" = "x1"`,
`increment "x9" = "x10"`.  (On newline-containing names the regex
behaves differently, see `claim_C8_counterexample`.) -/
theorem claim_C8 :
    (∀ (s : String) (n : Nat), '\n' ∉ s.data →
      s.data.reverse.takeWhile (fun c => c.isDigit) = [] →
      increment ⟨s.data ++ natDigits n⟩ = ⟨s.data ++ natDigits (n + 1)⟩) ∧
    (∀ s : String, '\n' ∉ s.data →
      s.data.reverse.takeWhile (fun c => c.isDigit) = [] →
      increment s = ⟨s.data ++ ['0']⟩) ∧
    increment "x" = "x0" ∧ increment "x0" = "x1" ∧ increment "x9" = "x10" := by
  refine ⟨?_, ?_, by decide, by decide, by decide⟩
  · intro s n hnl hnd
    obtain ⟨l', a, hc⟩ : ∃ l' a, natDigits n = l' ++ [a] := by
      rcases List.eq_nil_or_concat (natDigits n) with h0 | h0
      · exact absurd h0 (natDigits_ne_nil _)
      · obtain ⟨L, b, hb⟩ := h0
        exact ⟨L, b, by rw [hb, List.concat_eq_append]⟩
    have ha : a.isDigit = true := by
      apply natDigits_digits _ a
      rw [hc]
      simp
    have hdata : (⟨s.data ++ natDigits n⟩ : String).data = s.data ++ natDigits n := rfl
    have hanchor : anchorChars ⟨s.data ++ natDigits n⟩ = s.data ++ natDigits n := by
      rw [anchorChars, hdata]
      have hlast : (s.data ++ natDigits n).getLast? = some a := by
        rw [List.getLast?_append, hc, List.getLast?_concat]
        rfl
      rw [hlast, if_neg (fun hEq => isDigit_ne_newline ha (Option.some.inj hEq))]
    have hrev : (s.data ++ natDigits n).reverse = (natDigits n).reverse ++ s.data.reverse := by
      simp
    have hall : ∀ x ∈ (natDigits n).reverse, (fun c => c.isDigit) x = true := by
      intro x hx
      exact natDigits_digits _ x (List.mem_reverse.mp hx)
    have htake : (anchorChars ⟨s.data ++ natDigits n⟩).reverse.takeWhile
        (fun c => c.isDigit) = (natDigits n).reverse := by
      rw [hanchor, hrev, takeWhile_append_all _ hall, hnd, List.append_nil]
    have hdrop : (anchorChars ⟨s.data ++ natDigits n⟩).reverse.dropWhile
        (fun c => c.isDigit) = s.data.reverse := by
      rw [hanchor, hrev, dropWhile_append_all _ _ hall, dropWhile_of_takeWhile_nil hnd]
    have hnempty : ¬ ((anchorChars ⟨s.data ++ natDigits n⟩).reverse.takeWhile
        (fun c => c.isDigit)).isEmpty = true := by
      rw [htake]
      simp [natDigits_ne_nil]
    rw [increment, if_neg hnempty, htake, hdrop]
    have hleft : s.data.reverse.takeWhile (fun c => c != '\n') = s.data.reverse := by
      apply takeWhile_all
      intro x hx
      have hxm : x ∈ s.data := List.mem_reverse.mp hx
      simp only [bne_iff_ne, ne_eq]
      intro hxn
      subst hxn
      exact hnl hxm
    rw [hleft]
    simp [natDigits_parse]
  · intro s hnl hnd
    have hanchor : anchorChars s = s.data := by
      rw [anchorChars]
      by_cases hl : s.data.getLast? = some '\n'
      · exfalso
        apply hnl
        rw [eq_dropLast_concat_of_getLast hl]
        simp
      · rw [if_neg hl]
    have hcond : ((anchorChars s).reverse.takeWhile (fun c => c.isDigit)).isEmpty = true := by
      rw [hanchor, hnd]
      rfl
    rw [increment, if_pos hcond]

theorem claim_C8_witness : increment "x5" = "x6" ∧ increment "q" = "q0" := by
  constructor
  · have h := claim_C8.1 "x" 5 (by decide) (by decide)
    have e1 : (⟨"x".data ++ natDigits 5⟩ : String) = "x5" := by decide
    have e2 : (⟨"x".data ++ natDigits 6⟩ : String) = "x6" := by decide
    rw [e1, e2] at h
    exact h
  · have h := claim_C8.2.1 "q" (by decide) (by decide)
    have e : (⟨"q".data ++ ['0']⟩ : String) = "q0" := by decide
    rw [e] at h
    exact h

/-- C9: constructing an atomic formula or a functional term with an
argument count different from the declared arity fails with the
distinct error `ArityMismatch`; with a matching count the construction
succeeds; in particular `Atomic(Predicate("p",1), [])` fails. -/
theorem claim_C9 : ∀ (p : Predicate) (fn : Function) (ts : List Term),
    (makeAtomic p ts = .error .arityMismatch ↔ ts.length ≠ p.arity) ∧
    (makeAtomic p ts = .ok (.atomic p ts) ↔ ts.length = p.arity) ∧
    (makeFunctionalTerm fn ts = .error .arityMismatch ↔ ts.length ≠ fn.arity) ∧
    (makeFunctionalTerm fn ts = .ok (.func fn ts) ↔ ts.length = fn.arity) ∧
    makeAtomic ⟨"p", 1⟩ [] = .error .arityMismatch := by
  intro p fn ts
  refine ⟨?_, ?_, ?_, ?_, rfl⟩
  · by_cases h : ts.length = p.arity <;> simp [makeAtomic, h]
  · by_cases h : ts.length = p.arity <;> simp [makeAtomic, h]
  · by_cases h : ts.length = fn.arity <;> simp [makeFunctionalTerm, h]
  · by_cases h : ts.length = fn.arity <;> simp [makeFunctionalTerm, h]

/-- C10: `to_svf` is idempotent — on every NNF formula on which it
succeeds, applying it to its own output returns a structurally equal
formula (all bound names are already unique, so the renaming pass does
not change anything). -/
theorem claim_C10 (f g : WFF) (hnnf : nots_atomic f = true) (h : to_svf f = .ok g) :
    to_svf g = .ok g := by
  have hnd : (collect_bound g).Nodup := (to_svf_ok_props h).1
  have hself := (svf_self_main (2 * wsize g)).1 g [] le_rfl hnd (by simp)
  rw [to_svf, hself]

theorem claim_C10_witness :
    nots_atomic nnfExample = true ∧ to_svf nnfExample = .ok svfExample ∧
      to_svf svfExample = .ok svfExample := by
  have hsvf : to_svf nnfExample = .ok svfExample := by
    rw [← to_svf_eval_eq]
    rfl
  exact ⟨rfl, hsvf, claim_C10 nnfExample svfExample rfl hsvf⟩

end PyPredicate
